import Mathlib

/-!
Verification of the stroke-planning / stroke-rendering core of the Sonic
repository (`src/artist_module/quantum_simulator.py`, class
`QuantumStrokeSimulator`).

Modelling conventions:
* Python dicts holding stroke data are association lists `Dict` over a value
  type `PyVal`; Python floats are modelled as rationals `ℚ`, Python ints as `ℤ`.
* The global `random` generator is modelled as a tape of unit draws
  (`Tape`, one rational in `[0,1)` per call), threaded by explicit position.
  `random.randint`, `random.uniform` and `random.choice` are derived from one
  tape cell each, exactly one cell per call the source makes.
* `math.atan2` and `math.pi` on Python floats are kept abstract (a
  `FloatOracle` parameter); every claim that depends on the gradient angle is
  settled on the branch / argument structure (`GradCase`), which the source
  determines before `atan2` is applied.
* Code that can raise returns `Except Unit`; the per-stroke `try/except` in
  `simulate_stroke_rendering` becomes `Option` (a `none` stroke is skipped).
* `numpy` arrays of a decoded image are a `SrcImage`; its entries are uint8,
  expressed by the well-formedness predicate `SrcImage.Ok` (channels ≤ 255).
  uint8 subtraction wraps modulo 256 (`u8sub`), as numpy scalar arithmetic does.
-/

namespace Sonic

/-! ### Data model and operations (definitions) -/

/-- Python values that occur in stroke dicts. -/
inductive PyVal where
  | int : ℤ → PyVal
  | float : ℚ → PyVal
  | bool : Bool → PyVal
  | str : String → PyVal
  | tuple : List PyVal → PyVal
  | list : List PyVal → PyVal
  | dict : List (String × PyVal) → PyVal
  | none : PyVal

/-- A Python dict with string keys (insertion-ordered association list;
the source only builds dicts with pairwise distinct keys). -/
abbrev Dict := List (String × PyVal)

/-- `d[k]` lookup (first binding). -/
def dget : Dict → String → Option PyVal
  | [], _ => Option.none
  | (k0, v0) :: rest, k => if k0 = k then some v0 else dget rest k

/-- `d.get(k, dflt)`. -/
def dgetD (d : Dict) (k : String) (dflt : PyVal) : PyVal :=
  (dget d k).getD dflt

/-- `d[k] = v`: replace the first binding of `k`, else append. -/
def dset : Dict → String → PyVal → Dict
  | [], k, v => [(k, v)]
  | (k0, v0) :: rest, k, v =>
      if k0 = k then (k0, v) :: rest else (k0, v0) :: dset rest k v

/-- The stream of unit draws behind the `random` module: call `i` of
`random.random()` (or the single unit draw inside `randint` / `uniform` /
`choice`) yields `vals i`. -/
structure Tape where
  vals : ℕ → ℚ

/-- Every unit draw lies in `[0, 1)`. -/
def Tape.Ok (t : Tape) : Prop := ∀ i, 0 ≤ t.vals i ∧ t.vals i < 1

/-- `random.uniform a b` realised from the unit draw at position `k`. -/
def unif (t : Tape) (k : ℕ) (a b : ℚ) : ℚ := a + t.vals k * (b - a)

/-- `random.randint a b` (inclusive bounds) realised from the unit draw. -/
def rint (t : Tape) (k : ℕ) (a b : ℤ) : ℤ := a + ⌊t.vals k * (b - a + 1)⌋

/-- Index drawn by `random.choice` from a list of length `n`. -/
def chooseIdx (t : Tape) (k : ℕ) (n : ℕ) : ℕ := (⌊t.vals k * n⌋).toNat

/-- A decoded source image: `image.size = (width, height)`, and
`np.array(image)[y, x]` is the RGB triple `pix x y` (first three channels;
grayscale images, for which the source replicates the scalar into a triple,
are subsumed by a constant-channel `pix`). -/
structure SrcImage where
  width : ℕ
  height : ℕ
  pix : ℕ → ℕ → ℕ × ℕ × ℕ

/-- The numpy array stores uint8 channels: every channel value is ≤ 255. -/
def SrcImage.Ok (img : SrcImage) : Prop :=
  ∀ x y, (img.pix x y).1 ≤ 255 ∧ (img.pix x y).2.1 ≤ 255 ∧ (img.pix x y).2.2 ≤ 255

/-- The red channel `img_array[y, x, 0]`. -/
def red (img : SrcImage) (x y : ℕ) : ℕ := (img.pix x y).1

/-- Python `range(0, stop, step)` for positive `step`. -/
def pyRange (stop step : ℕ) : List ℕ :=
  List.range' 0 ((stop + step - 1) / step) step

/-- The grid the planners scan: `for y in range(0,h,s): for x in range(0,w,s)`,
as the list of `(x, y)` pairs in visit order. -/
def gridPts (w h s : ℕ) : List (ℕ × ℕ) :=
  (pyRange h s).flatMap fun y => (pyRange w s).map fun x => (x, y)

/-- `_get_color_at`: sample the pixel if in bounds, else mid-gray.
(The in-bounds branch returns `tuple(int(c) for c in color[:3])`.) -/
def getColorAt (img : SrcImage) (x y : ℕ) : PyVal :=
  if y < img.height ∧ x < img.width then
    PyVal.tuple [PyVal.int (red img x y), PyVal.int (img.pix x y).2.1,
      PyVal.int (img.pix x y).2.2]
  else
    PyVal.tuple [PyVal.int 128, PyVal.int 128, PyVal.int 128]

/-- uint8 subtraction, as numpy performs it on `np.uint8` scalars:
the difference wraps modulo 256 (result in `[0, 255]`). -/
def u8sub (a b : ℕ) : ℤ := ((a : ℤ) - (b : ℤ)) % 256

/-- What `_get_gradient_angle` feeds to `math.atan2`, before any float is
produced: either a pair of central differences (in the interior, when the
computed `dx` is nonzero), the constant `math.pi / 2` (interior, `dx == 0`),
or a fresh uniform draw from `[0, 2π)` (boundary pixels). -/
inductive GradCase where
  | atan2Args : ℤ → ℤ → GradCase
  | halfPi : GradCase
  | randomAngle : GradCase
deriving DecidableEq

/-- Branch structure of `_get_gradient_angle(img_array, x, y)`: the guards and
the uint8 central differences of the red channel, exactly as the source
computes them (`dy = img[y+1,x,0] - img[y-1,x,0]`, `dx = img[y,x+1,0] -
img[y,x-1,0]`, both wrapping modulo 256). -/
def gradCase (img : SrcImage) (x y : ℕ) : GradCase :=
  if 0 < y ∧ 0 < x ∧ y < img.height - 1 ∧ x < img.width - 1 then
    let dy := u8sub (red img x (y + 1)) (red img x (y - 1))
    let dx := u8sub (red img (x + 1) y) (red img (x - 1) y)
    if dx ≠ 0 then GradCase.atan2Args dy dx else GradCase.halfPi
  else GradCase.randomAngle

/-- Abstract float values the model does not compute exactly: `math.atan2` on
two (already-determined) arguments, `math.pi / 2`, and `2 * math.pi`. -/
structure FloatOracle where
  at2 : ℤ → ℤ → ℚ
  piHalf : ℚ
  twoPi : ℚ

/-- `_get_gradient_angle` as the planner consumes it: the angle value (through
the oracle) and the next tape position (the boundary branch draws once). -/
def getGradientAngle (O : FloatOracle) (t : Tape) (img : SrcImage)
    (x y : ℕ) (k : ℕ) : ℚ × ℕ :=
  match gradCase img x y with
  | GradCase.atan2Args dy dx => (O.at2 dy dx, k)
  | GradCase.halfPi => (O.piHalf, k)
  | GradCase.randomAngle => (unif t k 0 O.twoPi, k + 1)

/-- Loop body of `_plan_impressionist_strokes`: one unit draw per grid point;
with probability 0.3 (`random.random() > 0.7`) emit a brush stroke, drawing
length, angle, pressure and quantum state in source order. -/
def impLoop (O : FloatOracle) (img : SrcImage) (t : Tape) :
    List (ℕ × ℕ) → ℕ → List Dict × ℕ
  | [], k => ([], k)
  | (x, y) :: rest, k =>
      if t.vals k > 7/10 then
        let st : Dict :=
          [("type", PyVal.str "brush"),
           ("x", PyVal.int x), ("y", PyVal.int y),
           ("length", PyVal.int (rint t (k + 1) 5 15)),
           ("angle", PyVal.float (unif t (k + 2) 0 O.twoPi)),
           ("pressure", PyVal.float (unif t (k + 3) (3/10) (4/5))),
           ("color", getColorAt img x y),
           ("quantum_state", PyVal.float (unif t (k + 4) 0 1))]
        let (more, k2) := impLoop O img t rest (k + 5)
        (st :: more, k2)
      else impLoop O img t rest (k + 1)

/-- `_plan_impressionist_strokes`: stride-10 grid scan. -/
def planImpressionist (O : FloatOracle) (img : SrcImage) (t : Tape) (k : ℕ) :
    List Dict × ℕ :=
  impLoop O img t (gridPts img.width img.height 10) k

/-- `_divide_geometric`: 100-pixel cells, clipped at the image edges
(`min(cell_size, width - x)` over Python's signed integers). -/
def divideGeometric (w h : ℕ) : List Dict :=
  (pyRange h 100).flatMap fun (y : ℕ) => (pyRange w 100).map fun (x : ℕ) =>
    ([("x", PyVal.int (x : ℤ)), ("y", PyVal.int (y : ℤ)),
      ("width", PyVal.int (min 100 ((w : ℤ) - (x : ℤ)))),
      ("height", PyVal.int (min 100 ((h : ℤ) - (y : ℤ))))] : Dict)

/-- Inner loop of `_plan_cubist_strokes`: for one region, one geometric stroke
per angle in `[0, 45, 90, 135]`; each stroke draws a length and a quantum
state (two tape cells).  Note: no `x`/`y`/`color` keys are produced. -/
def cubAngles (t : Tape) (region : Dict) :
    List ℚ → ℕ → List Dict × ℕ
  | [], k => ([], k)
  | a :: rest, k =>
      let st : Dict :=
        [("type", PyVal.str "geometric"),
         ("region", PyVal.dict region),
         ("angle", PyVal.float a),
         ("length", PyVal.int (rint t k 20 50)),
         ("pressure", PyVal.float (1/2)),
         ("quantum_state", PyVal.float (unif t (k + 1) 0 1))]
      let (more, k2) := cubAngles t region rest (k + 2)
      (st :: more, k2)

/-- Outer loop of `_plan_cubist_strokes` over the geometric regions. -/
def cubLoop (t : Tape) : List Dict → ℕ → List Dict × ℕ
  | [], k => ([], k)
  | r :: rest, k =>
      let (st, k1) := cubAngles t r [0, 45, 90, 135] k
      let (more, k2) := cubLoop t rest k1
      (st ++ more, k2)

/-- `_plan_cubist_strokes`. -/
def planCubist (img : SrcImage) (t : Tape) (k : ℕ) : List Dict × ℕ :=
  cubLoop t (divideGeometric img.width img.height) k

/-- Loop body of `_plan_realistic_strokes`: stride-5 grid, probability 0.1
(`random.random() > 0.9`); the angle comes from `_get_gradient_angle`, which
may itself consume one draw on boundary pixels. -/
def realLoop (O : FloatOracle) (img : SrcImage) (t : Tape) :
    List (ℕ × ℕ) → ℕ → List Dict × ℕ
  | [], k => ([], k)
  | (x, y) :: rest, k =>
      if t.vals k > 9/10 then
        let len := rint t (k + 1) 10 30
        let (ang, k2) := getGradientAngle O t img x y (k + 2)
        let st : Dict :=
          [("type", PyVal.str "smooth"),
           ("x", PyVal.int x), ("y", PyVal.int y),
           ("length", PyVal.int len),
           ("angle", PyVal.float ang),
           ("pressure", PyVal.float (unif t k2 (1/5) (3/5))),
           ("color", getColorAt img x y),
           ("quantum_state", PyVal.float (unif t (k2 + 1) 0 1))]
        let (more, k3) := realLoop O img t rest (k2 + 2)
        (st :: more, k3)
      else realLoop O img t rest (k + 1)

/-- `_plan_realistic_strokes`. -/
def planRealistic (O : FloatOracle) (img : SrcImage) (t : Tape) (k : ℕ) :
    List Dict × ℕ :=
  realLoop O img t (gridPts img.width img.height 5) k

/-- Loop body of `_plan_general_strokes`: stride-8 grid, probability 0.2
(`random.random() > 0.8`). -/
def genLoop (O : FloatOracle) (img : SrcImage) (t : Tape) :
    List (ℕ × ℕ) → ℕ → List Dict × ℕ
  | [], k => ([], k)
  | (x, y) :: rest, k =>
      if t.vals k > 4/5 then
        let st : Dict :=
          [("type", PyVal.str "general"),
           ("x", PyVal.int x), ("y", PyVal.int y),
           ("length", PyVal.int (rint t (k + 1) 8 25)),
           ("angle", PyVal.float (unif t (k + 2) 0 O.twoPi)),
           ("pressure", PyVal.float (unif t (k + 3) (2/5) (7/10))),
           ("color", getColorAt img x y),
           ("quantum_state", PyVal.float (unif t (k + 4) 0 1))]
        let (more, k2) := genLoop O img t rest (k + 5)
        (st :: more, k2)
      else genLoop O img t rest (k + 1)

/-- `_plan_general_strokes`. -/
def planGeneral (O : FloatOracle) (img : SrcImage) (t : Tape) (k : ℕ) :
    List Dict × ℕ :=
  genLoop O img t (gridPts img.width img.height 8) k

/-- A raised Python exception (`KeyError`, `TypeError`, `ValueError`)
becomes `Except.error ()`. -/
def liftOpt : Option α → Except Unit α
  | some a => Except.ok a
  | Option.none => Except.error ()

/-- The numeric value of a Python number (`int`, `float`, or `bool`, which is
an `int` subclass); arithmetic on any other value raises `TypeError`. -/
def numQ : PyVal → Option ℚ
  | PyVal.int i => some (i : ℚ)
  | PyVal.float q => some q
  | PyVal.bool b => some (if b then 1 else 0)
  | _ => Option.none

/-- Python `int()` applied to a float: truncation toward zero. -/
def pyInt (q : ℚ) : ℤ := if 0 ≤ q then ⌊q⌋ else -⌊-q⌋

/-- The `medium_properties` table of `_apply_medium_properties`, with the
hard-coded default `{viscosity: 0.5, blending: 0.7, drying: 0.5}` for any
unknown medium: `(viscosity, blending, drying)`. -/
def mediumProps (m : String) : ℚ × ℚ × ℚ :=
  if m = "Oil Paint" then (4/5, 9/10, 1/10)
  else if m = "Watercolor" then (3/10, 7/10, 4/5)
  else if m = "Pencil Art" then (1/10, 2/5, 9/10)
  else if m = "Digital Painting" then (1/2, 1, 0)
  else (1/2, 7/10, 1/2)

/-- The property record attached to each stroke (`stroke['medium_properties']
= props`). -/
def mediumPropsVal (m : String) : PyVal :=
  PyVal.dict [("viscosity", PyVal.float (mediumProps m).1),
    ("blending", PyVal.float (mediumProps m).2.1),
    ("drying", PyVal.float (mediumProps m).2.2)]

/-- Per-stroke body of `_apply_medium_properties`: attach the property record,
`pressure *= viscosity`, `length *= (1 + blending * 0.5)`, then
`pressure = float(pressure)` (identity: it is already a float) and
`length = int(length)` (truncation).  Missing or non-numeric `pressure` /
`length` raise. -/
def mediumStep (m : String) (s : Dict) : Except Unit Dict :=
  let s1 := dset s "medium_properties" (mediumPropsVal m)
  match (dget s1 "pressure").bind numQ with
  | Option.none => Except.error ()
  | some p =>
    let s2 := dset s1 "pressure" (PyVal.float (p * (mediumProps m).1))
    match (dget s2 "length").bind numQ with
    | Option.none => Except.error ()
    | some l =>
      let s3 := dset s2 "length"
        (PyVal.float (l * (1 + (mediumProps m).2.1 * (1/2))))
      match (dget s3 "length").bind numQ with
      | Option.none => Except.error ()
      | some l2 => Except.ok (dset s3 "length" (PyVal.int (pyInt l2)))

/-- `_apply_medium_properties` over the stroke list. -/
def applyMedium (m : String) : List Dict → Except Unit (List Dict)
  | [] => Except.ok []
  | s :: rest =>
      match mediumStep m s with
      | Except.error e => Except.error e
      | Except.ok s2 =>
          match applyMedium m rest with
          | Except.error e => Except.error e
          | Except.ok rest2 => Except.ok (s2 :: rest2)

/-- Python `v + r` for integer `r` (the `+=` in the tunneling phase):
defined for numbers, `TypeError` otherwise. -/
def pyAddInt : PyVal → ℤ → Option PyVal
  | PyVal.int i, r => some (PyVal.int (i + r))
  | PyVal.float q, r => some (PyVal.float (q + (r : ℚ)))
  | PyVal.bool bb, r => some (PyVal.int ((if bb then 1 else 0) + r))
  | _, _ => Option.none

/-- One tunneling iteration: pick a random existing stroke, copy it, offset
`x` and `y` by `randint(-50, 50)` (KeyError if the stroke has no such key),
set `quantum_state` to `uniform(0.8, 1.0)` and `quantum_tunnel` to `True`,
and append the copy.  The `if strokes:` guard skips empty lists. -/
def tunnelStep (t : Tape) (st : List Dict × ℕ) : Except Unit (List Dict × ℕ) :=
  match st with
  | ([], k) => Except.ok ([], k)
  | (a :: l, k) =>
      let ss := a :: l
      let idx := chooseIdx t k ss.length
      let base := ss.getD idx []
      match (dget base "x").bind fun v =>
          pyAddInt v (rint t (k + 1) (-50) 50) with
      | Option.none => Except.error ()
      | some newx =>
        let q1 := dset base "x" newx
        match (dget q1 "y").bind fun v =>
            pyAddInt v (rint t (k + 2) (-50) 50) with
        | Option.none => Except.error ()
        | some newy =>
          let q2 := dset q1 "y" newy
          let q3 := dset q2 "quantum_state"
            (PyVal.float (unif t (k + 3) (4/5) 1))
          let q4 := dset q3 "quantum_tunnel" (PyVal.bool true)
          Except.ok (ss ++ [q4], k + 4)

/-- The tunneling loop, `n` iterations. -/
def tunnelLoop (t : Tape) : ℕ → List Dict × ℕ → Except Unit (List Dict × ℕ)
  | 0, st => Except.ok st
  | n + 1, st =>
      match tunnelStep t st with
      | Except.error e => Except.error e
      | Except.ok st2 => tunnelLoop t n st2

/-- The whole tunneling phase: `int(len(strokes) * 0.1)` iterations, the count
taken once, before any append.  (For every feasible length, Python's
`int(N * 0.1)` equals `N / 10` rounded down; the product is exact in double
precision far beyond any list this code can build.) -/
def tunnelPhase (t : Tape) (ss : List Dict) (k : ℕ) :
    Except Unit (List Dict × ℕ) :=
  tunnelLoop t (ss.length / 10) (ss, k)

/-- Update index `i` of the stroke list: `strokes[i][key] = v`. -/
def dsetAt (l : List Dict) (i : ℕ) (k : String) (v : PyVal) : List Dict :=
  l.set i (dset (l.getD i []) k v)

/-- One entanglement iteration at index `i`: if `i + 1` is in range, link
`strokes[i]` and `strokes[i + 1]` to each other. -/
def entStep (l : List Dict) (i : ℕ) : List Dict :=
  if i + 1 < l.length then
    dsetAt (dsetAt l i "entangled_with" (PyVal.int (i + 1)))
      (i + 1) "entangled_with" (PyVal.int i)
  else l

/-- The entanglement walk over a list of indices. -/
def entLoop : List ℕ → List Dict → List Dict
  | [], l => l
  | i :: rest, l => entLoop rest (entStep l i)

/-- The entanglement phase: `for i in range(0, len(strokes), 5)`. -/
def entanglePhase (l : List Dict) : List Dict := entLoop (pyRange l.length 5) l

/-- `_add_quantum_effects`: tunneling, then entanglement. -/
def addQuantumEffects (t : Tape) (ss : List Dict) (k : ℕ) :
    Except Unit (List Dict × ℕ) :=
  match tunnelPhase t ss k with
  | Except.error e => Except.error e
  | Except.ok (ss2, k2) => Except.ok (entanglePhase ss2, k2)

mutual
/-- `_convert_to_serializable` on one value.  In this model there are no numpy
values, so the `np.integer` / `np.floating` / `np.ndarray` branches are
vacuous, the list/tuple branch keeps its value unchanged (its guard
`isinstance(value[0], (np.integer, np.floating))` is always false), the
`color` branch is shadowed by the list/tuple branch, and only nested dicts
recurse. -/
def convVal : PyVal → PyVal
  | PyVal.dict es => PyVal.dict (convEntries es)
  | v => v

/-- `_convert_to_serializable` over the items of a dict. -/
def convEntries : List (String × PyVal) → List (String × PyVal)
  | [] => []
  | (k, v) :: rest => (k, convVal v) :: convEntries rest
end

/-- `_convert_to_serializable` on a stroke dict. -/
def convStroke (s : Dict) : Dict := convEntries s

/-- The tail of `plan_strokes` after the planner dispatch: apply medium
properties, add quantum effects, convert for serialization. -/
def planTail (mediumStyle : String) (t : Tape) (bk : List Dict × ℕ) :
    Except Unit (List Dict) :=
  match applyMedium mediumStyle bk.1 with
  | Except.error e => Except.error e
  | Except.ok m =>
      match addQuantumEffects t m bk.2 with
      | Except.error e => Except.error e
      | Except.ok (q, _) => Except.ok (q.map convStroke)

/-- `plan_strokes(image, art_type, medium_style)`: dispatch on the art type
(case-sensitively; anything unrecognized falls back to the general planner),
apply medium properties, add quantum effects, convert for serialization. -/
def plan_strokes (O : FloatOracle) (img : SrcImage)
    (artType mediumStyle : String) (t : Tape) : Except Unit (List Dict) :=
  planTail mediumStyle t
    (if artType = "Impressionism" then planImpressionist O img t 0
    else if artType = "Cubism" then planCubist img t 0
    else if artType = "Realism" then planRealistic O img t 0
    else planGeneral O img t 0)

/-- Python `float(v)` as used on the coordinate fields: numbers convert,
anything else raises inside the per-stroke `try` (numeric-literal strings,
which `float` would parse, are not modelled; no claim involves them). -/
def toFloatPy : PyVal → Option ℚ
  | PyVal.int i => some (i : ℚ)
  | PyVal.float q => some q
  | PyVal.bool b => some (if b then 1 else 0)
  | _ => Option.none

/-- Python `int(c)` on a color channel: numbers truncate, anything else
raises (again, numeric-literal strings are not modelled). -/
def toIntPy : PyVal → Option ℤ
  | PyVal.int i => some i
  | PyVal.float q => some (pyInt q)
  | PyVal.bool b => some (if b then 1 else 0)
  | _ => Option.none

/-- `tuple(int(c) for c in color[:3])` followed by the line draw: fewer than
three channels make PIL reject the fill, a non-numeric channel raises in the
generator; both are caught and skip the stroke. -/
def conv3 : List PyVal → Option (ℤ × ℤ × ℤ)
  | a :: b :: c :: _ => do
      let ra ← toIntPy a
      let rb ← toIntPy b
      let rc ← toIntPy c
      pure (ra, rb, rc)
  | _ => Option.none

/-- The color used for the stroke: `stroke.get('color', (255, 215, 0))`;
list/tuple values are converted channel-wise, any other value falls back to
the default gold. -/
def colorOf (s : Dict) : Option (ℤ × ℤ × ℤ) :=
  match dget s "color" with
  | Option.none => some (255, 215, 0)
  | some (PyVal.tuple vs) => conv3 vs
  | some (PyVal.list vs) => conv3 vs
  | some _ => some (255, 215, 0)

/-- Python truthiness, for `stroke.get('quantum_tunnel', False)`. -/
def pyTruthy : PyVal → Bool
  | PyVal.int i => i ≠ 0
  | PyVal.float q => q ≠ 0
  | PyVal.bool b => b
  | PyVal.str s => s ≠ ""
  | PyVal.tuple vs => ¬ vs.isEmpty
  | PyVal.list vs => ¬ vs.isEmpty
  | PyVal.dict es => ¬ es.isEmpty
  | PyVal.none => false

/-- The dead `alpha` computation: `128` for truthy `quantum_tunnel`, else
`int(255 * stroke.get('pressure', 0.5))`.  Its value is never used, but a
non-numeric pressure on a non-tunneled stroke raises here and the stroke is
skipped. -/
def alphaOf (s : Dict) : Option ℤ :=
  if pyTruthy (dgetD s "quantum_tunnel" (PyVal.bool false)) then some 128
  else (numQ (dgetD s "pressure" (PyVal.float (1/2)))).map fun p =>
    pyInt (255 * p)

/-- One `draw.line` call.  The segment drawn is from `(x1, y1)` to
`(x1 + len * cos ang, y1 + len * sin ang)` — the endpoints are functions of
the recorded fields, so command-list equality determines pixel equality. -/
structure LineCmd where
  x1 : ℚ
  y1 : ℚ
  len : ℚ
  ang : ℚ
  color : ℤ × ℤ × ℤ
  width : ℤ
deriving DecidableEq

/-- The body of the render loop for one stroke: `none` means some step raised
and the stroke is silently skipped (`except: continue`).  Field reads use the
source defaults `x=0, y=0, length=10, angle=0`; all strokes are drawn with
width 2 and the computed alpha is discarded. -/
def strokeCmd (s : Dict) : Option LineCmd := do
  let x1 ← toFloatPy (dgetD s "x" (PyVal.int 0))
  let y1 ← toFloatPy (dgetD s "y" (PyVal.int 0))
  let len ← toFloatPy (dgetD s "length" (PyVal.int 10))
  let ang ← toFloatPy (dgetD s "angle" (PyVal.int 0))
  let col ← colorOf s
  let _ ← alphaOf s
  pure ⟨x1, y1, len, ang, col, 2⟩

/-- The sort key: `s.get('pressure', 0.5)`. -/
def sortKey (s : Dict) : PyVal := dgetD s "pressure" (PyVal.float (1/2))

/-- Comparability class of a sort key.  Python orders numbers with numbers
and strings with strings; comparing across classes raises `TypeError`
(values outside these classes — `None`, dicts, and nested tuples, which
Python sometimes orders element-wise — are modelled as incomparable; no
claim exercises them as sort keys). -/
inductive KeyClass where
  | num : KeyClass
  | str : KeyClass
  | other : KeyClass
deriving DecidableEq

/-- The class of a key value. -/
def keyClass : PyVal → KeyClass
  | PyVal.int _ => KeyClass.num
  | PyVal.float _ => KeyClass.num
  | PyVal.bool _ => KeyClass.num
  | PyVal.str _ => KeyClass.str
  | _ => KeyClass.other

/-- Two keys that Python can compare without raising. -/
def keyComp (a b : PyVal) : Bool :=
  keyClass a = keyClass b ∧ keyClass a ≠ KeyClass.other

/-- Total comparison used once comparability is established (numbers by
value, strings lexicographically). -/
def pyLeB (a b : PyVal) : Bool :=
  match numQ a, numQ b with
  | some x, some y => x ≤ y
  | _, _ =>
      match a, b with
      | PyVal.str x, PyVal.str y => x ≤ y
      | _, _ => true

/-- Stable insertion of `a` (an element originally before everything in the
already-sorted `l`) — equal keys keep `a` first, as Python's stable sort
does. -/
def insertBy (le : α → α → Bool) (a : α) : List α → List α
  | [] => [a]
  | b :: l => if le a b then a :: b :: l else b :: insertBy le a l

/-- Stable insertion sort; its output is the unique stable ordering, hence
the one Python's `sorted` produces. -/
def isortBy (le : α → α → Bool) : List α → List α
  | [] => []
  | a :: l => insertBy le a (isortBy le l)

/-- `sorted(strokes, key=lambda s: s.get('pressure', 0.5))`: builds a fresh
sorted list; a comparison between incomparable keys raises `TypeError`
outside the per-stroke `try`.  Lists of length ≤ 1 perform no comparison;
with ≥ 2 elements and the flat key classes above, mixed classes always force
a raising comparison. -/
def allKeysComp (ss : List Dict) : Bool :=
  (ss.map sortKey).all fun a => (ss.map sortKey).all fun b => keyComp a b

def pySortStrokes (ss : List Dict) : Except Unit (List Dict) :=
  match ss with
  | [] => Except.ok []
  | [s] => Except.ok [s]
  | _ =>
      if allKeysComp ss then
        Except.ok (isortBy (fun a b => pyLeB (sortKey a) (sortKey b)) ss)
      else Except.error ()

/-- The rendered canvas: its size (`Image.new('RGB', image.size)`) and the
sequence of successful `draw.line` calls on the white background. -/
structure RImage where
  size : ℕ × ℕ
  cmds : List LineCmd
deriving DecidableEq

/-- `simulate_stroke_rendering(image, strokes)`.  The first component is the
result (an exception from the sort propagates; per-stroke exceptions only
skip the stroke); the second component is the final value of the `strokes`
argument — the source sorts into a fresh list and only ever reads stroke
fields, so it is returned unchanged. -/
def simulate_stroke_rendering (sz : ℕ × ℕ) (strokes : List Dict) :
    Except Unit RImage × List Dict :=
  match pySortStrokes strokes with
  | Except.error e => (Except.error e, strokes)
  | Except.ok sorted_strokes =>
      (Except.ok ⟨sz, sorted_strokes.filterMap strokeCmd⟩, strokes)

/-- The `render_strokes` interface: just the produced image. -/
def renderStrokes (sz : ℕ × ℕ) (strokes : List Dict) : Except Unit RImage :=
  (simulate_stroke_rendering sz strokes).1

/-- A value Python arithmetic accepts as a number. -/
def NumV (v : PyVal) : Prop := (numQ v).isSome

/-- The stroke holds numeric `x` and `y` entries (what the tunneling `+=`
requires). -/
def HasNumXY (s : Dict) : Prop :=
  (∃ v, dget s "x" = some v ∧ NumV v) ∧ (∃ v, dget s "y" = some v ∧ NumV v)

/-- The stroke's color is a 3-tuple of integers in `[0, 255]`. -/
def ColorOk (s : Dict) : Prop :=
  ∃ r g b : ℤ,
    dget s "color" = some (PyVal.tuple [PyVal.int r, PyVal.int g, PyVal.int b]) ∧
    0 ≤ r ∧ r ≤ 255 ∧ 0 ≤ g ∧ g ≤ 255 ∧ 0 ≤ b ∧ b ≤ 255

/-- The stroke holds numeric `pressure` and `length` entries (what
`_apply_medium_properties` requires). -/
def NumPL (s : Dict) : Prop :=
  (∃ v, dget s "pressure" = some v ∧ NumV v) ∧
  (∃ v, dget s "length" = some v ∧ NumV v)

/-- Shape of a cubist stroke: no `x`, `y`, `color` or `quantum_tunnel`
keys, numeric pressure and length, float angle. -/
def CubistShape (s : Dict) : Prop :=
  dget s "x" = Option.none ∧ dget s "y" = Option.none ∧
  dget s "color" = Option.none ∧ NumPL s ∧
  (∃ a : ℚ, dget s "angle" = some (PyVal.float a)) ∧
  dget s "quantum_tunnel" = Option.none ∧
  (∃ l : ℤ, dget s "length" = some (PyVal.int l)) ∧
  (∃ p : ℚ, dget s "pressure" = some (PyVal.float p))

/-- What the tunneling phase guarantees about every stroke it appends:
`quantum_state` is a float in `[0.8, 1.0]` and `quantum_tunnel` is `True`. -/
def TunnelProps (s : Dict) : Prop :=
  (∃ qv : ℚ, dget s "quantum_state" = some (PyVal.float qv) ∧
    4/5 ≤ qv ∧ qv ≤ 1) ∧
  dget s "quantum_tunnel" = some (PyVal.bool true)

/-- The stroke's `pressure`, when present, is numeric (always true of
planner output; the renderer needs it for the sort and the dead alpha). -/
def PressureNumOrAbsent (s : Dict) : Prop :=
  ∀ v, dget s "pressure" = some v → NumV v

/-- Two strokes that agree on every key other than `quantum_tunnel` (the
hyperproperty relation of the tunneling-invariance claim). -/
def TunnelEq (s1 s2 : Dict) : Prop :=
  ∀ k, k ≠ "quantum_tunnel" → dget s1 k = dget s2 k

/-- The gradient-angle branch structure exactly as claim C3 words it: `dy`
and `dx` are the *exact signed* central differences of the red channel
(values in `[-255, 255]`).  This follows the claim, not the source, and is
compared against the source model `gradCase`. -/
def gradCaseClaim (img : SrcImage) (x y : ℕ) : GradCase :=
  if 0 < y ∧ 0 < x ∧ y < img.height - 1 ∧ x < img.width - 1 then
    let dy : ℤ := (red img x (y + 1) : ℤ) - (red img x (y - 1) : ℤ)
    let dx : ℤ := (red img (x + 1) y : ℤ) - (red img (x - 1) y : ℤ)
    if dx ≠ 0 then GradCase.atan2Args dy dx else GradCase.halfPi
  else GradCase.randomAngle

/-- A pipeline-final Cubist stroke as seen by the renderer. -/
def CubFinal (s : Dict) : Prop :=
  dget s "x" = Option.none ∧ dget s "y" = Option.none ∧
  dget s "color" = Option.none ∧
  dget s "quantum_tunnel" = Option.none ∧
  (∃ p : ℚ, dget s "pressure" = some (PyVal.float p)) ∧
  (∃ l : ℤ, dget s "length" = some (PyVal.int l)) ∧
  (∃ a : ℚ, dget s "angle" = some (PyVal.float a))

/-! ### Properties (theorems) -/

theorem dget_dset_self (d : Dict) (k : String) (v : PyVal) :
    dget (dset d k v) k = some v := by
  induction d with
  | nil => simp [dset, dget]
  | cons hd tl ih =>
      by_cases h : hd.1 = k
      · simp [dset, dget, h]
      · simp [dset, dget, h, ih]

theorem dget_dset_ne (d : Dict) {k k2 : String} (v : PyVal) (h : k ≠ k2) :
    dget (dset d k v) k2 = dget d k2 := by
  induction d with
  | nil => simp [dset, dget, h]
  | cons hd tl ih =>
      by_cases h0 : hd.1 = k
      · simp [dset, dget, h0, h]
      · simp [dset, dget, h0, ih]

theorem unif_mem {t : Tape} (ht : t.Ok) (k : ℕ) {a b : ℚ} (hab : a ≤ b) :
    a ≤ unif t k a b ∧ unif t k a b ≤ b := by
  obtain ⟨h0, h1⟩ := ht k
  have hba : (0 : ℚ) ≤ b - a := by linarith
  constructor
  · have : 0 ≤ t.vals k * (b - a) := mul_nonneg h0 hba
    simp only [unif]; linarith
  · have : t.vals k * (b - a) ≤ 1 * (b - a) := by
      exact mul_le_mul_of_nonneg_right (le_of_lt h1) hba
    simp only [unif]; linarith

theorem rint_mem {t : Tape} (ht : t.Ok) (k : ℕ) {a b : ℤ} (hab : a ≤ b) :
    a ≤ rint t k a b ∧ rint t k a b ≤ b := by
  obtain ⟨h0, h1⟩ := ht k
  have hc : (0 : ℚ) < ((b : ℚ) - a + 1) := by
    have : (a : ℚ) ≤ b := by exact_mod_cast hab
    linarith
  have hlow : 0 ≤ ⌊t.vals k * ((b : ℚ) - a + 1)⌋ := by
    apply Int.floor_nonneg.mpr
    exact mul_nonneg h0 (le_of_lt hc)
  have hup : ⌊t.vals k * ((b : ℚ) - a + 1)⌋ < b - a + 1 := by
    apply Int.floor_lt.mpr
    have : t.vals k * ((b : ℚ) - a + 1) < 1 * ((b : ℚ) - a + 1) :=
      mul_lt_mul_of_pos_right h1 hc
    push_cast
    linarith
  constructor
  · simp only [rint]
    omega
  · simp only [rint]
    omega

theorem chooseIdx_lt {t : Tape} (ht : t.Ok) (k : ℕ) {n : ℕ} (hn : 0 < n) :
    chooseIdx t k n < n := by
  obtain ⟨h0, h1⟩ := ht k
  have hnn : (0 : ℚ) ≤ (n : ℚ) := by positivity
  have hlt : t.vals k * n < n := by
    calc t.vals k * n < 1 * n := by
          apply mul_lt_mul_of_pos_right h1
          exact_mod_cast hn
      _ = n := one_mul _
  have hf : ⌊t.vals k * (n : ℚ)⌋ < (n : ℤ) := by
    apply Int.floor_lt.mpr
    push_cast
    exact hlt
  have hnn2 : 0 ≤ ⌊t.vals k * (n : ℚ)⌋ := by
    apply Int.floor_nonneg.mpr
    exact mul_nonneg h0 hnn
  simp only [chooseIdx]
  omega

theorem dset_dset (d : Dict) (k : String) (v w : PyVal) :
    dset (dset d k v) k w = dset d k w := by
  induction d with
  | nil => simp [dset]
  | cons hd tl ih =>
      by_cases h : hd.1 = k
      · simp [dset, h]
      · simp [dset, h, ih]

theorem dget_convStroke (s : Dict) (k : String) :
    dget (convStroke s) k = (dget s k).map convVal := by
  induction s with
  | nil => simp [convStroke, convEntries, dget]
  | cons hd tl ih =>
      obtain ⟨k0, v0⟩ := hd
      by_cases h : k0 = k
      · simp [convStroke, convEntries, dget, h]
      · simpa [convStroke, convEntries, dget, h] using ih

theorem convVal_int (i : ℤ) : convVal (PyVal.int i) = PyVal.int i := rfl

theorem convVal_float (q : ℚ) : convVal (PyVal.float q) = PyVal.float q := rfl

theorem convVal_bool (b : Bool) : convVal (PyVal.bool b) = PyVal.bool b := rfl

theorem convVal_tuple (l : List PyVal) :
    convVal (PyVal.tuple l) = PyVal.tuple l := rfl

theorem pyAddInt_of_num {v : PyVal} (r : ℤ) (h : NumV v) :
    ∃ w, pyAddInt v r = some w ∧ NumV w := by
  cases v <;> simp [NumV, numQ] at h <;>
    exact ⟨_, rfl, by simp [NumV, numQ]⟩

/-- Channels sampled by `_get_color_at` from a uint8 image are a well-formed
color triple: three integers in `[0, 255]`. -/
theorem getColorAt_ok {img : SrcImage} (h : img.Ok) (x y : ℕ) :
    ∃ r g b : ℤ, getColorAt img x y =
      PyVal.tuple [PyVal.int r, PyVal.int g, PyVal.int b] ∧
      0 ≤ r ∧ r ≤ 255 ∧ 0 ≤ g ∧ g ≤ 255 ∧ 0 ≤ b ∧ b ≤ 255 := by
  obtain ⟨h1, h2, h3⟩ := h x y
  unfold getColorAt
  by_cases hb : y < img.height ∧ x < img.width
  · refine ⟨(img.pix x y).1, (img.pix x y).2.1, (img.pix x y).2.2, ?_, ?_⟩
    · simp [hb, red]
    · constructor
      · positivity
      refine ⟨by exact_mod_cast h1, by positivity, by exact_mod_cast h2,
        by positivity, by exact_mod_cast h3⟩
  · exact ⟨128, 128, 128, by simp [hb], by norm_num⟩

/-- The bundle of facts about one freshly planned non-cubist stroke. -/
theorem planned_stroke_facts (img : SrcImage) (ty : String) (x y : ℕ) (l : ℤ)
    (a p q : ℚ) :
    HasNumXY ([("type", PyVal.str ty),
        ("x", PyVal.int x), ("y", PyVal.int y), ("length", PyVal.int l),
        ("angle", PyVal.float a), ("pressure", PyVal.float p),
        ("color", getColorAt img x y),
        ("quantum_state", PyVal.float q)] : Dict) ∧
    NumPL ([("type", PyVal.str ty),
        ("x", PyVal.int x), ("y", PyVal.int y), ("length", PyVal.int l),
        ("angle", PyVal.float a), ("pressure", PyVal.float p),
        ("color", getColorAt img x y),
        ("quantum_state", PyVal.float q)] : Dict) ∧
    (img.Ok → ColorOk ([("type", PyVal.str ty),
        ("x", PyVal.int x), ("y", PyVal.int y), ("length", PyVal.int l),
        ("angle", PyVal.float a), ("pressure", PyVal.float p),
        ("color", getColorAt img x y),
        ("quantum_state", PyVal.float q)] : Dict)) := by
  refine ⟨⟨⟨PyVal.int x, rfl, by simp [NumV, numQ]⟩,
      ⟨PyVal.int y, rfl, by simp [NumV, numQ]⟩⟩,
    ⟨⟨PyVal.float p, rfl, by simp [NumV, numQ]⟩,
      ⟨PyVal.int l, rfl, by simp [NumV, numQ]⟩⟩, ?_⟩
  intro himg
  obtain ⟨r, g, b, hc, hb⟩ := getColorAt_ok himg x y
  exact ⟨r, g, b, by rw [← hc]; exact rfl, hb⟩

theorem impLoop_shape (O : FloatOracle) (img : SrcImage) (t : Tape) :
    ∀ (pts : List (ℕ × ℕ)) (k : ℕ), ∀ s ∈ (impLoop O img t pts k).1,
      HasNumXY s ∧ NumPL s ∧ (img.Ok → ColorOk s) := by
  intro pts
  induction pts with
  | nil => intro k s hs; simp [impLoop] at hs
  | cons p rest ih =>
      obtain ⟨x, y⟩ := p
      intro k s hs
      rw [impLoop] at hs
      by_cases h : t.vals k > 7/10
      · rw [if_pos h] at hs
        rcases he : impLoop O img t rest (k + 5) with ⟨more, k2⟩
        rw [he] at hs
        dsimp only at hs
        rcases List.mem_cons.mp hs with rfl | hmem
        · exact planned_stroke_facts img "brush" x y _ _ _ _
        · exact ih (k + 5) s (by rw [he]; exact hmem)
      · rw [if_neg h] at hs
        exact ih (k + 1) s hs

theorem genLoop_shape (O : FloatOracle) (img : SrcImage) (t : Tape) :
    ∀ (pts : List (ℕ × ℕ)) (k : ℕ), ∀ s ∈ (genLoop O img t pts k).1,
      HasNumXY s ∧ NumPL s ∧ (img.Ok → ColorOk s) := by
  intro pts
  induction pts with
  | nil => intro k s hs; simp [genLoop] at hs
  | cons p rest ih =>
      obtain ⟨x, y⟩ := p
      intro k s hs
      rw [genLoop] at hs
      by_cases h : t.vals k > 4/5
      · rw [if_pos h] at hs
        rcases he : genLoop O img t rest (k + 5) with ⟨more, k2⟩
        rw [he] at hs
        dsimp only at hs
        rcases List.mem_cons.mp hs with rfl | hmem
        · exact planned_stroke_facts img "general" x y _ _ _ _
        · exact ih (k + 5) s (by rw [he]; exact hmem)
      · rw [if_neg h] at hs
        exact ih (k + 1) s hs

theorem realLoop_shape (O : FloatOracle) (img : SrcImage) (t : Tape) :
    ∀ (pts : List (ℕ × ℕ)) (k : ℕ), ∀ s ∈ (realLoop O img t pts k).1,
      HasNumXY s ∧ NumPL s ∧ (img.Ok → ColorOk s) := by
  intro pts
  induction pts with
  | nil => intro k s hs; simp [realLoop] at hs
  | cons p rest ih =>
      obtain ⟨x, y⟩ := p
      intro k s hs
      rw [realLoop] at hs
      by_cases h : t.vals k > 9/10
      · rw [if_pos h] at hs
        rcases hg : getGradientAngle O t img x y (k + 2) with ⟨ang, kg⟩
        rw [hg] at hs
        dsimp only at hs
        rcases he : realLoop O img t rest (kg + 2) with ⟨more, k2⟩
        rw [he] at hs
        dsimp only at hs
        rcases List.mem_cons.mp hs with rfl | hmem
        · exact planned_stroke_facts img "smooth" x y _ _ _ _
        · exact ih (kg + 2) s (by rw [he]; exact hmem)
      · rw [if_neg h] at hs
        exact ih (k + 1) s hs

theorem cubAngles_shape (t : Tape) (region : Dict) :
    ∀ (as : List ℚ) (k : ℕ), ∀ s ∈ (cubAngles t region as k).1,
      CubistShape s := by
  intro as
  induction as with
  | nil => intro k s hs; simp [cubAngles] at hs
  | cons a rest ih =>
      intro k s hs
      rw [cubAngles] at hs
      rcases he : cubAngles t region rest (k + 2) with ⟨more, k2⟩
      rw [he] at hs
      dsimp only at hs
      rcases List.mem_cons.mp hs with rfl | hmem
      · exact ⟨rfl, rfl, rfl,
          ⟨⟨PyVal.float (1/2), rfl, by simp [NumV, numQ]⟩,
            ⟨PyVal.int _, rfl, by simp [NumV, numQ]⟩⟩,
          ⟨a, rfl⟩, rfl, ⟨_, rfl⟩, ⟨1/2, rfl⟩⟩
      · exact ih (k + 2) s (by rw [he]; exact hmem)

theorem cubLoop_shape (t : Tape) :
    ∀ (rs : List Dict) (k : ℕ), ∀ s ∈ (cubLoop t rs k).1, CubistShape s := by
  intro rs
  induction rs with
  | nil => intro k s hs; simp [cubLoop] at hs
  | cons r rest ih =>
      intro k s hs
      rw [cubLoop] at hs
      rcases ha : cubAngles t r [0, 45, 90, 135] k with ⟨st, k1⟩
      rw [ha] at hs
      dsimp only at hs
      rcases he : cubLoop t rest k1 with ⟨more, k2⟩
      rw [he] at hs
      dsimp only at hs
      rcases List.mem_append.mp hs with hmem | hmem
      · exact cubAngles_shape t r _ k s (by rw [ha]; exact hmem)
      · exact ih k1 s (by rw [he]; exact hmem)

theorem mediumStep_ok {m : String} {s : Dict} {p l : ℚ}
    (hp : (dget s "pressure").bind numQ = some p)
    (hl : (dget s "length").bind numQ = some l) :
    mediumStep m s = Except.ok (dset (dset (dset s "medium_properties"
      (mediumPropsVal m)) "pressure" (PyVal.float (p * (mediumProps m).1)))
      "length" (PyVal.int (pyInt (l * (1 + (mediumProps m).2.1 * (1/2)))))) := by
  unfold mediumStep
  dsimp only
  rw [dget_dset_ne _ _ (by decide), hp]
  dsimp only
  rw [dget_dset_ne _ _ (by decide), dget_dset_ne _ _ (by decide), hl]
  dsimp only
  rw [dget_dset_self]
  dsimp only [Option.bind, numQ]
  rw [dset_dset]

theorem mediumStep_cases (m : String) (s : Dict) :
    mediumStep m s = Except.error () ∨
    ∃ p l : ℚ, (dget s "pressure").bind numQ = some p ∧
      (dget s "length").bind numQ = some l := by
  cases hp : (dget s "pressure").bind numQ with
  | none =>
      left
      unfold mediumStep
      dsimp only
      rw [dget_dset_ne _ _ (by decide), hp]
  | some p =>
      cases hl : (dget s "length").bind numQ with
      | none =>
          left
          unfold mediumStep
          dsimp only
          rw [dget_dset_ne _ _ (by decide), hp]
          dsimp only
          rw [dget_dset_ne _ _ (by decide), dget_dset_ne _ _ (by decide), hl]
      | some l => exact Or.inr ⟨p, l, rfl, rfl⟩

/-- What one medium-adjusted stroke looks like: untouched keys besides
`medium_properties`, `pressure`, `length`; a float pressure, an int length,
and the attached property record. -/
theorem mediumStep_facts {m : String} {s s2 : Dict}
    (h : mediumStep m s = Except.ok s2) :
    (∀ k, k ≠ "medium_properties" → k ≠ "pressure" → k ≠ "length" →
      dget s2 k = dget s k) ∧
    (∃ p : ℚ, dget s2 "pressure" = some (PyVal.float p)) ∧
    (∃ l : ℤ, dget s2 "length" = some (PyVal.int l)) ∧
    dget s2 "medium_properties" = some (mediumPropsVal m) := by
  rcases mediumStep_cases m s with herr | ⟨p, l, hp, hl⟩
  · rw [herr] at h; cases h
  · rw [mediumStep_ok hp hl] at h
    injection h with h2
    subst h2
    refine ⟨?_, ⟨p * (mediumProps m).1, ?_⟩, ⟨_, dget_dset_self _ _ _⟩, ?_⟩
    · intro k hk1 hk2 hk3
      rw [dget_dset_ne _ _ (Ne.symm hk3), dget_dset_ne _ _ (Ne.symm hk2),
        dget_dset_ne _ _ (Ne.symm hk1)]
    · rw [dget_dset_ne _ _ (by decide), dget_dset_self]
    · rw [dget_dset_ne _ _ (by decide), dget_dset_ne _ _ (by decide),
        dget_dset_self]

theorem numPL_binds {s : Dict} (h : NumPL s) :
    ∃ p l : ℚ, (dget s "pressure").bind numQ = some p ∧
      (dget s "length").bind numQ = some l := by
  obtain ⟨⟨vp, hvp, hnp⟩, ⟨vl, hvl, hnl⟩⟩ := h
  obtain ⟨p, hp⟩ := Option.isSome_iff_exists.mp hnp
  obtain ⟨l, hl⟩ := Option.isSome_iff_exists.mp hnl
  exact ⟨p, l, by rw [hvp]; simpa using hp, by rw [hvl]; simpa using hl⟩

theorem applyMedium_ok {m : String} :
    ∀ {ss : List Dict}, (∀ s ∈ ss, NumPL s) →
    ∃ out, applyMedium m ss = Except.ok out ∧
      List.Forall₂ (fun s s2 => mediumStep m s = Except.ok s2) ss out := by
  intro ss
  induction ss with
  | nil => exact fun _ => ⟨[], rfl, List.Forall₂.nil⟩
  | cons s rest ih =>
      intro h
      obtain ⟨p, l, hp, hl⟩ := numPL_binds (h s (List.mem_cons_self s rest))
      obtain ⟨out, hout, hrel⟩ :=
        ih fun s2 hs2 => h s2 (List.mem_cons_of_mem _ hs2)
      refine ⟨_ :: out, ?_, List.Forall₂.cons (mediumStep_ok hp hl) hrel⟩
      rw [applyMedium, mediumStep_ok hp hl, hout]

/-- An inversion for `applyMedium`: success means element-wise success. -/
theorem applyMedium_inv {m : String} :
    ∀ {ss out : List Dict}, applyMedium m ss = Except.ok out →
      List.Forall₂ (fun s s2 => mediumStep m s = Except.ok s2) ss out := by
  intro ss
  induction ss with
  | nil =>
      intro out h
      rw [applyMedium] at h
      injection h with h2
      subst h2
      exact List.Forall₂.nil
  | cons s rest ih =>
      intro out h
      rw [applyMedium] at h
      cases hstep : mediumStep m s with
      | error e => rw [hstep] at h; cases h
      | ok s2 =>
          rw [hstep] at h
          cases hrest : applyMedium m rest with
          | error e => rw [hrest] at h; cases h
          | ok rest2 =>
              rw [hrest] at h
              injection h with h2
              subst h2
              exact List.Forall₂.cons hstep (ih hrest)

theorem getD_mem {α : Type} (d : α) :
    ∀ (l : List α) (i : ℕ), i < l.length → l.getD i d ∈ l
  | a :: l, 0, _ => List.mem_cons_self a l
  | a :: l, i + 1, h =>
      List.mem_cons_of_mem a (getD_mem d l i (by simpa using h))

/-- Success inversion for one tunneling iteration on a nonempty list: the
result is the input extended by one clone carrying the quantum fields. -/
theorem tunnelStep_inv {t : Tape} {ss : List Dict} {k : ℕ}
    {st2 : List Dict × ℕ} (hne : ss ≠ [])
    (h : tunnelStep t (ss, k) = Except.ok st2) :
    ∃ q, st2 = (ss ++ [q], k + 4) ∧
      dget q "quantum_state" =
        some (PyVal.float (unif t (k + 3) (4/5) 1)) ∧
      dget q "quantum_tunnel" = some (PyVal.bool true) ∧
      (∀ key, key ≠ "x" → key ≠ "y" → key ≠ "quantum_state" →
        key ≠ "quantum_tunnel" →
        dget q key = dget (ss.getD (chooseIdx t k ss.length) []) key) ∧
      ((∀ s ∈ ss, HasNumXY s) → chooseIdx t k ss.length < ss.length →
        HasNumXY q) := by
  cases ss with
  | nil => exact absurd rfl hne
  | cons a l =>
      rw [tunnelStep] at h
      dsimp only at h
      cases hx : (dget ((a :: l).getD (chooseIdx t k (a :: l).length) [])
          "x").bind (fun v => pyAddInt v (rint t (k + 1) (-50) 50)) with
      | none => rw [hx] at h; cases h
      | some newx =>
          rw [hx] at h
          dsimp only at h
          cases hy : (dget (dset ((a :: l).getD (chooseIdx t k
              (a :: l).length) []) "x" newx) "y").bind
              (fun v => pyAddInt v (rint t (k + 2) (-50) 50)) with
          | none => rw [hy] at h; cases h
          | some newy =>
              rw [hy] at h
              dsimp only at h
              injection h with h2
              subst h2
              refine ⟨_, rfl, ?_, dget_dset_self _ _ _, ?_, ?_⟩
              · rw [dget_dset_ne _ _ (by decide), dget_dset_self]
              · intro key h1 h2 h3 h4
                rw [dget_dset_ne _ _ (Ne.symm h4), dget_dset_ne _ _
                  (Ne.symm h3), dget_dset_ne _ _ (Ne.symm h2),
                  dget_dset_ne _ _ (Ne.symm h1)]
              · intro hxy hlt
                have hbase := hxy _ (getD_mem [] _ _ hlt)
                obtain ⟨⟨vx, hvx, hnx⟩, ⟨vy, hvy, hny⟩⟩ := hbase
                constructor
                · refine ⟨newx, ?_, ?_⟩
                  · rw [dget_dset_ne _ _ (by decide),
                      dget_dset_ne _ _ (by decide),
                      dget_dset_ne _ _ (by decide), dget_dset_self]
                  · rw [hvx] at hx
                    simp only [Option.some_bind] at hx
                    obtain ⟨w, hw, hnw⟩ := pyAddInt_of_num
                      (rint t (k + 1) (-50) 50) hnx
                    rw [hw] at hx
                    injection hx with hx2
                    exact hx2 ▸ hnw
                · refine ⟨newy, ?_, ?_⟩
                  · rw [dget_dset_ne _ _ (by decide),
                      dget_dset_ne _ _ (by decide), dget_dset_self]
                  · rw [dget_dset_ne _ _ (by decide), hvy] at hy
                    simp only [Option.some_bind] at hy
                    obtain ⟨w, hw, hnw⟩ := pyAddInt_of_num
                      (rint t (k + 2) (-50) 50) hny
                    rw [hw] at hy
                    injection hy with hy2
                    exact hy2 ▸ hnw

/-- Success of one tunneling iteration when every stroke has numeric `x`/`y`. -/
theorem tunnelStep_ok {t : Tape} (ht : t.Ok) {ss : List Dict} {k : ℕ}
    (hne : ss ≠ []) (hxy : ∀ s ∈ ss, HasNumXY s) :
    ∃ st2, tunnelStep t (ss, k) = Except.ok st2 := by
  cases ss with
  | nil => exact absurd rfl hne
  | cons a l =>
      have hlt : chooseIdx t k (a :: l).length < (a :: l).length :=
        chooseIdx_lt ht k (by simp)
      obtain ⟨⟨vx, hvx, hnx⟩, ⟨vy, hvy, hny⟩⟩ :=
        hxy _ (getD_mem [] (a :: l) _ hlt)
      obtain ⟨wx, hwx, _⟩ := pyAddInt_of_num (rint t (k + 1) (-50) 50) hnx
      obtain ⟨wy, hwy, _⟩ := pyAddInt_of_num (rint t (k + 2) (-50) 50) hny
      cases hstep : tunnelStep t (a :: l, k) with
      | ok st2 => exact ⟨st2, rfl⟩
      | error e =>
          exfalso
          rw [tunnelStep] at hstep
          dsimp only at hstep
          rw [hvx] at hstep
          simp only [Option.some_bind] at hstep
          rw [hwx] at hstep
          dsimp only at hstep
          rw [dget_dset_ne _ _ (by decide), hvy] at hstep
          simp only [Option.some_bind] at hstep
          rw [hwy] at hstep
          dsimp only at hstep
          cases hstep

theorem tunnelProps_of {t : Tape} (ht : t.Ok) {q : Dict} {k : ℕ}
    (hqs : dget q "quantum_state" = some (PyVal.float (unif t k (4/5) 1)))
    (hqt : dget q "quantum_tunnel" = some (PyVal.bool true)) :
    TunnelProps q :=
  ⟨⟨_, hqs, (unif_mem ht k (by norm_num)).1, (unif_mem ht k (by norm_num)).2⟩,
    hqt⟩

/-- The tunneling loop succeeds on strokes with numeric `x`/`y`, appends
exactly `n` strokes, preserves any per-stroke property `P` that does not
depend on the touched keys, and stamps the quantum fields on every
appendee. -/
theorem tunnelLoop_ok {t : Tape} (ht : t.Ok) (P : Dict → Prop)
    (hPmono : ∀ s s2, (∀ key, key ≠ "x" → key ≠ "y" → key ≠ "quantum_state" →
      key ≠ "quantum_tunnel" → dget s2 key = dget s key) → P s → P s2) :
    ∀ (n : ℕ) (ss : List Dict) (k : ℕ),
      (∀ s ∈ ss, HasNumXY s ∧ P s) → (ss = [] → n = 0) →
      ∃ (tail : List Dict) (k2 : ℕ),
        tunnelLoop t n (ss, k) = Except.ok (ss ++ tail, k2) ∧
        tail.length = n ∧
        (∀ s ∈ ss ++ tail, HasNumXY s ∧ P s) ∧
        (∀ q ∈ tail, TunnelProps q) := by
  intro n
  induction n with
  | zero =>
      intro ss k hinv _
      exact ⟨[], k, by rw [tunnelLoop, List.append_nil], rfl,
        by rw [List.append_nil]; exact hinv, by simp⟩
  | succ n ih =>
      intro ss k hinv hemp
      have hne : ss ≠ [] := fun hc => Nat.succ_ne_zero n (hemp hc)
      obtain ⟨st2, hstep⟩ := tunnelStep_ok ht hne fun s hs => (hinv s hs).1
      obtain ⟨q, hst2, hqs, hqt, hother, hxyq⟩ := tunnelStep_inv hne hstep
      subst hst2
      have hlt : chooseIdx t k ss.length < ss.length :=
        chooseIdx_lt ht k (List.length_pos.mpr hne)
      have hbase := hinv _ (getD_mem [] ss _ hlt)
      have hq : HasNumXY q ∧ P q :=
        ⟨hxyq (fun s hs => (hinv s hs).1) hlt, hPmono _ _ hother hbase.2⟩
      have hinv2 : ∀ s ∈ ss ++ [q], HasNumXY s ∧ P s := by
        intro s hs
        rcases List.mem_append.mp hs with hs | hs
        · exact hinv s hs
        · rw [List.mem_singleton.mp hs]; exact hq
      obtain ⟨tail, k2, hloop, hlen, hinv3, htail⟩ :=
        ih (ss ++ [q]) (k + 4) hinv2 (by simp)
      refine ⟨q :: tail, k2, ?_, by simpa using hlen, ?_, ?_⟩
      · rw [tunnelLoop, hstep]
        dsimp only
        rw [hloop]
        simp
      · intro s hs
        apply hinv3
        simp only [List.append_assoc, List.singleton_append]
        exact hs
      · intro q2 hq2
        rcases List.mem_cons.mp hq2 with rfl | hq2
        · exact tunnelProps_of ht hqs hqt
        · exact htail q2 hq2

/-- Completion-based inversion of the tunneling loop: whenever it returns
normally it has appended exactly `n` strokes (none from an empty list), each
carrying the quantum fields. -/
theorem tunnelLoop_complete {t : Tape} (ht : t.Ok) :
    ∀ (n : ℕ) (ss : List Dict) (k : ℕ) (out : List Dict) (k2 : ℕ),
      tunnelLoop t n (ss, k) = Except.ok (out, k2) →
      ∃ tail, out = ss ++ tail ∧
        tail.length = (if ss.isEmpty then 0 else n) ∧
        ∀ q ∈ tail, TunnelProps q := by
  intro n
  induction n with
  | zero =>
      intro ss k out k2 h
      rw [tunnelLoop] at h
      injection h with h2
      injection h2 with h3 h4
      exact ⟨[], by rw [← h3, List.append_nil], by cases ss <;> simp, by simp⟩
  | succ n ih =>
      intro ss k out k2 h
      rw [tunnelLoop] at h
      cases ss with
      | nil =>
          rw [tunnelStep] at h
          dsimp only at h
          obtain ⟨tail, h1, h2, h3⟩ := ih [] k out k2 h
          exact ⟨tail, h1, by simpa using h2, h3⟩
      | cons a l =>
          cases hstep : tunnelStep t (a :: l, k) with
          | error e => rw [hstep] at h; cases h
          | ok st2 =>
              rw [hstep] at h
              dsimp only at h
              obtain ⟨q, hst2, hqs, hqt, hother, _⟩ :=
                tunnelStep_inv (by simp) hstep
              subst hst2
              obtain ⟨tail, h1, h2, h3⟩ := ih _ _ _ _ h
              refine ⟨q :: tail, ?_, ?_, ?_⟩
              · rw [h1]; simp
              · have hn : tail.length = n := by simpa using h2
                simp [hn]
              · intro q2 hq2
                rcases List.mem_cons.mp hq2 with rfl | hq2
                · exact tunnelProps_of ht hqs hqt
                · exact h3 q2 hq2

theorem set_getD_ne {α : Type} (d a : α) :
    ∀ (l : List α) (i m : ℕ), i ≠ m → (l.set i a).getD m d = l.getD m d
  | [], _, _, _ => rfl
  | _ :: _, 0, 0, h => absurd rfl h
  | _ :: _, 0, _ + 1, _ => rfl
  | _ :: _, _ + 1, 0, _ => rfl
  | _ :: l, i + 1, m + 1, h =>
      set_getD_ne d a l i m fun hc => h (by rw [hc])

theorem set_getD_self {α : Type} (d a : α) :
    ∀ (l : List α) (i : ℕ), i < l.length → (l.set i a).getD i d = a
  | [], i, h => absurd h (by simp)
  | _ :: _, 0, _ => rfl
  | _ :: l, i + 1, h => set_getD_self d a l i (by simpa using h)

theorem dsetAt_length (l : List Dict) (i : ℕ) (k : String) (v : PyVal) :
    (dsetAt l i k v).length = l.length := by
  simp [dsetAt]

theorem entStep_length (l : List Dict) (i : ℕ) :
    (entStep l i).length = l.length := by
  unfold entStep
  split <;> simp [dsetAt]

theorem entLoop_length : ∀ (is : List ℕ) (l : List Dict),
    (entLoop is l).length = l.length
  | [], _ => rfl
  | i :: rest, l => by
      rw [entLoop, entLoop_length rest, entStep_length]

theorem dsetAt_mem {l : List Dict} {i : ℕ} {key : String} {v : PyVal}
    {s : Dict} (hs : s ∈ dsetAt l i key v) :
    s ∈ l ∨ ∃ s0, s0 ∈ l ∧ s = dset s0 key v := by
  by_cases hi : i < l.length
  · rcases List.mem_or_eq_of_mem_set hs with h | h
    · exact Or.inl h
    · exact Or.inr ⟨_, getD_mem [] l i hi, h⟩
  · rw [dsetAt, List.set_eq_of_length_le (le_of_not_lt hi)] at hs
    exact Or.inl hs

theorem entStep_mem_pres (P : Dict → Prop)
    (hP : ∀ s v, P s → P (dset s "entangled_with" v)) {l : List Dict} {i : ℕ}
    (h : ∀ s ∈ l, P s) : ∀ s ∈ entStep l i, P s := by
  intro s hs
  unfold entStep at hs
  by_cases hc : i + 1 < l.length
  · rw [if_pos hc] at hs
    rcases dsetAt_mem hs with hs1 | ⟨s0, hs0, rfl⟩
    · rcases dsetAt_mem hs1 with hs2 | ⟨s1, hs1b, rfl⟩
      · exact h s hs2
      · exact hP _ _ (h _ hs1b)
    · rcases dsetAt_mem hs0 with hs2 | ⟨s1, hs1b, rfl⟩
      · exact hP _ _ (h _ hs2)
      · exact hP _ _ (hP _ _ (h _ hs1b))
  · rw [if_neg hc] at hs
    exact h s hs

theorem entLoop_mem_pres (P : Dict → Prop)
    (hP : ∀ s v, P s → P (dset s "entangled_with" v)) :
    ∀ (is : List ℕ) (l : List Dict), (∀ s ∈ l, P s) →
      ∀ s ∈ entLoop is l, P s
  | [], l, h => h
  | i :: rest, l, h => by
      rw [entLoop]
      exact entLoop_mem_pres P hP rest (entStep l i) (entStep_mem_pres P hP h)

/-- Positions touched by no index of the walk keep their dict. -/
theorem entLoop_getD_untouched :
    ∀ (is : List ℕ) (l : List Dict) (m : ℕ),
      (∀ i ∈ is, m ≠ i ∧ m ≠ i + 1) →
      (entLoop is l).getD m [] = l.getD m [] := by
  intro is
  induction is with
  | nil => intro l m _; rfl
  | cons i rest ih =>
      intro l m hm
      rw [entLoop, ih _ m fun j hj => hm j (List.mem_cons_of_mem i hj)]
      obtain ⟨h1, h2⟩ := hm i (List.mem_cons_self i rest)
      unfold entStep
      split
      · rw [dsetAt, set_getD_ne _ _ _ _ _ fun hc => h2 hc.symm,
          dsetAt, set_getD_ne _ _ _ _ _ fun hc => h1 hc.symm]
      · rfl

/-- Induction core for the entanglement walk: the iteration at index `5q`
links positions `5q` and `5q + 1` mutually, and later iterations do not
disturb them. -/
theorem entLoop_links :
    ∀ (cnt b : ℕ) (l : List Dict) (q : ℕ), b ≤ q → q < b + cnt →
      5 * q + 1 < l.length →
      dget ((entLoop (List.range' (5 * b) cnt 5) l).getD (5 * q) [])
        "entangled_with" = some (PyVal.int (5 * q + 1)) ∧
      dget ((entLoop (List.range' (5 * b) cnt 5) l).getD (5 * q + 1) [])
        "entangled_with" = some (PyVal.int (5 * q)) := by
  intro cnt
  induction cnt with
  | zero => intro b l q hbq hq hlen; omega
  | succ cnt ih =>
      intro b l q hbq hq hlen
      rw [List.range'_succ, entLoop]
      have hge : ∀ j ∈ List.range' (5 * b + 5) cnt 5, 5 * b + 5 ≤ j := by
        intro j hj
        obtain ⟨i, _, rfl⟩ := List.mem_range'.mp hj
        omega
      rcases eq_or_lt_of_le hbq with rfl | hblt
      · have hcond : 5 * b + 1 < l.length := hlen
        constructor
        · rw [entLoop_getD_untouched _ _ _
            fun j hj => ⟨by have := hge j hj; omega,
              by have := hge j hj; omega⟩]
          unfold entStep
          rw [if_pos hcond, dsetAt,
            set_getD_ne _ _ _ _ _ (by omega), dsetAt,
            set_getD_self _ _ _ _ (by omega), dget_dset_self]
          norm_cast
        · rw [entLoop_getD_untouched _ _ _
            fun j hj => ⟨by have := hge j hj; omega,
              by have := hge j hj; omega⟩]
          unfold entStep
          rw [if_pos hcond, dsetAt,
            set_getD_self _ _ _ _ (by rw [dsetAt_length]; omega),
            dget_dset_self]
          norm_cast
      · have hrec := ih (b + 1) (entStep l (5 * b)) q hblt (by omega)
          (by rw [entStep_length]; exact hlen)
        rw [show 5 * (b + 1) = 5 * b + 5 by ring] at hrec
        exact hrec

/-- The entanglement phase links the pair `(i, i + 1)` mutually for every
in-range walk index `i` (a multiple of 5). -/
theorem entangle_links {l : List Dict} {i : ℕ} (hi5 : i % 5 = 0)
    (hlt : i + 1 < l.length) :
    dget ((entanglePhase l).getD i []) "entangled_with" =
      some (PyVal.int (i + 1)) ∧
    dget ((entanglePhase l).getD (i + 1) []) "entangled_with" =
      some (PyVal.int i) := by
  obtain ⟨q, rfl⟩ : ∃ q, i = 5 * q := ⟨i / 5, by omega⟩
  have h5 : 5 * q + 1 ≤ l.length := le_of_lt hlt
  have hq : q < (l.length + 4) / 5 := by
    have : (q + 1) * 5 ≤ l.length + 4 := by omega
    have := (Nat.le_div_iff_mul_le (by norm_num : 0 < 5)).mpr this
    omega
  have hmain := entLoop_links ((l.length + 5 - 1) / 5) 0 l q (Nat.zero_le q)
    (by simpa using by omega : q < 0 + (l.length + 5 - 1) / 5) hlt
  simpa [entanglePhase, pyRange] using hmain

theorem keyClass_num_of {s : Dict} (h : PressureNumOrAbsent s) :
    keyClass (sortKey s) = KeyClass.num := by
  unfold sortKey dgetD
  cases hv : dget s "pressure" with
  | none => rfl
  | some v =>
      have := h v hv
      cases v <;> simp [NumV, numQ] at this <;> rfl

theorem allKeysComp_true {ss : List Dict}
    (h : ∀ s ∈ ss, PressureNumOrAbsent s) : allKeysComp ss = true := by
  unfold allKeysComp
  rw [List.all_eq_true]
  intro a hs
  rw [List.all_eq_true]
  intro b hs2
  obtain ⟨s, hsm, rfl⟩ := List.mem_map.mp hs
  obtain ⟨s2, hsm2, rfl⟩ := List.mem_map.mp hs2
  simp [keyComp, keyClass_num_of (h s hsm), keyClass_num_of (h s2 hsm2)]

theorem insertBy_mem {α : Type} (le : α → α → Bool) (a : α) :
    ∀ (l : List α) (x : α), x ∈ insertBy le a l → x = a ∨ x ∈ l := by
  intro l
  induction l with
  | nil => intro x hx; simp [insertBy] at hx; exact Or.inl hx
  | cons b l ih =>
      intro x hx
      rw [insertBy] at hx
      by_cases hc : le a b
      · rw [if_pos hc] at hx
        rcases List.mem_cons.mp hx with rfl | hx
        · exact Or.inl rfl
        · exact Or.inr hx
      · rw [if_neg hc] at hx
        rcases List.mem_cons.mp hx with rfl | hx
        · exact Or.inr (List.mem_cons_self _ _)
        · rcases ih x hx with h | h
          · exact Or.inl h
          · exact Or.inr (List.mem_cons_of_mem _ h)

theorem insertBy_length {α : Type} (le : α → α → Bool) (a : α) :
    ∀ (l : List α), (insertBy le a l).length = l.length + 1 := by
  intro l
  induction l with
  | nil => rfl
  | cons b l ih =>
      rw [insertBy]
      by_cases hc : le a b
      · rw [if_pos hc]; rfl
      · rw [if_neg hc]; simp [ih]

theorem isortBy_mem {α : Type} (le : α → α → Bool) :
    ∀ (l : List α) (x : α), x ∈ isortBy le l → x ∈ l := by
  intro l
  induction l with
  | nil => intro x hx; simp [isortBy] at hx
  | cons a l ih =>
      intro x hx
      rw [isortBy] at hx
      rcases insertBy_mem le a _ x hx with rfl | hx
      · exact List.mem_cons_self _ _
      · exact List.mem_cons_of_mem _ (ih x hx)

theorem isortBy_length {α : Type} (le : α → α → Bool) :
    ∀ (l : List α), (isortBy le l).length = l.length := by
  intro l
  induction l with
  | nil => rfl
  | cons a l ih => rw [isortBy, insertBy_length, ih]; rfl

/-- The sort succeeds on numeric (or defaulted) pressures and permutes the
input. -/
theorem pySort_ok {ss : List Dict} (h : ∀ s ∈ ss, PressureNumOrAbsent s) :
    ∃ ws, pySortStrokes ss = Except.ok ws ∧ ws.length = ss.length ∧
      ∀ s ∈ ws, s ∈ ss := by
  match ss with
  | [] => exact ⟨[], rfl, rfl, by simp⟩
  | [s] => exact ⟨[s], rfl, rfl, by simp⟩
  | a :: b :: rest =>
      refine ⟨isortBy (fun x y => pyLeB (sortKey x) (sortKey y))
        (a :: b :: rest), ?_, isortBy_length _ _, isortBy_mem _ _⟩
      rw [pySortStrokes, if_pos (allKeysComp_true h)] <;> simp

theorem alphaOf_isSome {s : Dict} (h : PressureNumOrAbsent s) :
    ∃ al, alphaOf s = some al := by
  unfold alphaOf
  by_cases hq : pyTruthy (dgetD s "quantum_tunnel" (PyVal.bool false))
  · rw [if_pos hq]; exact ⟨128, rfl⟩
  · rw [if_neg hq]
    unfold dgetD
    cases hv : dget s "pressure" with
    | none => exact ⟨_, rfl⟩
    | some v =>
        have := h v hv
        obtain ⟨p, hp⟩ := Option.isSome_iff_exists.mp this
        simp [hp]

theorem sortKey_tunnelEq {s1 s2 : Dict} (h : TunnelEq s1 s2) :
    sortKey s1 = sortKey s2 := by
  unfold sortKey dgetD
  rw [h _ (by decide)]

theorem pressureNum_tunnelEq {s1 s2 : Dict} (h : TunnelEq s1 s2)
    (hp : PressureNumOrAbsent s1) : PressureNumOrAbsent s2 :=
  fun v hv => hp v ((h _ (by decide)).trans hv)

/-- The per-stroke render step cannot distinguish two strokes that differ
only in `quantum_tunnel`, provided the (dead) alpha computation cannot raise
on either: the flag is only ever read by that dead computation. -/
theorem strokeCmd_tunnelEq {s1 s2 : Dict} (h : TunnelEq s1 s2)
    (hp : PressureNumOrAbsent s1) : strokeCmd s1 = strokeCmd s2 := by
  obtain ⟨a1, ha1⟩ := alphaOf_isSome hp
  obtain ⟨a2, ha2⟩ := alphaOf_isSome (pressureNum_tunnelEq h hp)
  have hx : dgetD s1 "x" (PyVal.int 0) = dgetD s2 "x" (PyVal.int 0) := by
    unfold dgetD; rw [h _ (by decide)]
  have hy : dgetD s1 "y" (PyVal.int 0) = dgetD s2 "y" (PyVal.int 0) := by
    unfold dgetD; rw [h _ (by decide)]
  have hl : dgetD s1 "length" (PyVal.int 10) =
      dgetD s2 "length" (PyVal.int 10) := by
    unfold dgetD; rw [h _ (by decide)]
  have ha : dgetD s1 "angle" (PyVal.int 0) =
      dgetD s2 "angle" (PyVal.int 0) := by
    unfold dgetD; rw [h _ (by decide)]
  have hcol : colorOf s1 = colorOf s2 := by
    unfold colorOf; rw [h _ (by decide)]
  unfold strokeCmd
  rw [hx, hy, hl, ha, hcol, ha1, ha2]
  cases toFloatPy (dgetD s2 "x" (PyVal.int 0)) <;>
    cases toFloatPy (dgetD s2 "y" (PyVal.int 0)) <;>
      cases toFloatPy (dgetD s2 "length" (PyVal.int 10)) <;>
        cases toFloatPy (dgetD s2 "angle" (PyVal.int 0)) <;>
          cases colorOf s2 <;> rfl

theorem forall2_insertBy {α : Type} {R : α → α → Prop} {le : α → α → Bool}
    (hle : ∀ a b a2 b2, R a a2 → R b b2 → le a b = le a2 b2)
    {l1 l2 : List α} {a1 a2 : α} (ha : R a1 a2)
    (hl : List.Forall₂ R l1 l2) :
    List.Forall₂ R (insertBy le a1 l1) (insertBy le a2 l2) := by
  induction hl with
  | nil => exact List.Forall₂.cons ha List.Forall₂.nil
  | @cons b1 b2 t1 t2 hb hrest ih =>
      rw [insertBy, insertBy]
      have hee : le a1 b1 = le a2 b2 := hle _ _ _ _ ha hb
      by_cases hc : le a1 b1
      · rw [if_pos hc, if_pos (by rw [← hee]; exact hc)]
        exact List.Forall₂.cons ha (List.Forall₂.cons hb hrest)
      · rw [if_neg hc, if_neg (by rw [← hee]; exact hc)]
        exact List.Forall₂.cons hb ih

theorem forall2_isortBy {α : Type} {R : α → α → Prop} {le : α → α → Bool}
    (hle : ∀ a b a2 b2, R a a2 → R b b2 → le a b = le a2 b2)
    {l1 l2 : List α} (h : List.Forall₂ R l1 l2) :
    List.Forall₂ R (isortBy le l1) (isortBy le l2) := by
  induction h with
  | nil => exact List.Forall₂.nil
  | cons ha htail ih =>
      rw [isortBy, isortBy]
      exact forall2_insertBy hle ha ih

theorem filterMap_congr_forall2 {α β : Type} {f : α → Option β}
    {l1 l2 : List α} (h : List.Forall₂ (fun a b => f a = f b) l1 l2) :
    l1.filterMap f = l2.filterMap f := by
  induction h with
  | nil => rfl
  | cons ha htail ih => rw [List.filterMap_cons, List.filterMap_cons, ha, ih]

theorem map_sortKey_eq {R : Dict → Dict → Prop}
    (hR : ∀ a b, R a b → sortKey a = sortKey b) :
    ∀ {l1 l2 : List Dict}, List.Forall₂ R l1 l2 →
      l1.map sortKey = l2.map sortKey := by
  intro l1 l2 h
  induction h with
  | nil => rfl
  | cons ha htail ih => rw [List.map_cons, List.map_cons, hR _ _ ha, ih]

theorem allKeysComp_eq_of_map {ss1 ss2 : List Dict}
    (h : ss1.map sortKey = ss2.map sortKey) :
    allKeysComp ss1 = allKeysComp ss2 := by
  unfold allKeysComp
  rw [h]

theorem forall2_and_left {R : Dict → Dict → Prop} {P : Dict → Prop} :
    ∀ {l1 l2 : List Dict}, List.Forall₂ R l1 l2 → (∀ s ∈ l1, P s) →
      List.Forall₂ (fun a b => R a b ∧ P a) l1 l2 := by
  intro l1 l2 h
  induction h with
  | nil => exact fun _ => List.Forall₂.nil
  | @cons a b t1 t2 ha htail ih =>
      intro hP
      exact List.Forall₂.cons ⟨ha, hP a (List.mem_cons_self _ _)⟩
        (ih fun s hs => hP s (List.mem_cons_of_mem _ hs))

/-- C6 (confirmed): after the entanglement phase of `_add_quantum_effects`,
links are symmetric: every in-range walk index `i` (multiple of 5) makes
stroke `i` point to `i + 1` and stroke `i + 1` point back to `i`; and no
stroke belongs to two distinct walk pairs, since distinct walk indices are
at least 5 apart. -/
theorem c6_entanglement_symmetric (l : List Dict) :
    (∀ i, i % 5 = 0 → i + 1 < l.length →
      dget ((entanglePhase l).getD i []) "entangled_with" =
        some (PyVal.int (i + 1)) ∧
      dget ((entanglePhase l).getD (i + 1) []) "entangled_with" =
        some (PyVal.int i)) ∧
    (∀ i j, i % 5 = 0 → j % 5 = 0 → i + 1 < l.length → j + 1 < l.length →
      i ≠ j → i ≠ j + 1 ∧ i + 1 ≠ j ∧ i + 1 ≠ j + 1) := by
  refine ⟨fun i hi hlt => entangle_links hi hlt, ?_⟩
  intro i j hi hj _ _ hij
  omega

/-- Concrete instance of C6: seven strokes give the pairs (0,1) and (5,6). -/
theorem c6_entanglement_symmetric_witness :
    dget ((entanglePhase (List.replicate 7 ([] : Dict))).getD 5 [])
      "entangled_with" = some (PyVal.int 6) ∧
    dget ((entanglePhase (List.replicate 7 ([] : Dict))).getD 6 [])
      "entangled_with" = some (PyVal.int 5) :=
  (c6_entanglement_symmetric (List.replicate 7 [])).1 5 (by norm_num)
    (by simp)

/-- C4 (confirmed): whenever the tunneling phase completes on an input of
length N, it appends exactly `⌊0.1 · N⌋` strokes (N counted before
tunneling), each with `quantum_state` in `[0.8, 1.0]` and the
`quantum_tunnel` flag set. -/
theorem c4_tunneling_count {t : Tape} (ht : t.Ok) {ss out : List Dict}
    {k k2 : ℕ} (h : tunnelPhase t ss k = Except.ok (out, k2)) :
    out.length = ss.length + ss.length / 10 ∧
    ∀ q ∈ out.drop ss.length,
      (∃ qv : ℚ, dget q "quantum_state" = some (PyVal.float qv) ∧
        4/5 ≤ qv ∧ qv ≤ 1) ∧
      dget q "quantum_tunnel" = some (PyVal.bool true) := by
  obtain ⟨tail, rfl, hlen, hprops⟩ := tunnelLoop_complete ht _ _ _ _ _ h
  have hlen2 : tail.length = ss.length / 10 := by
    cases ss with
    | nil => simpa using hlen
    | cons a l => simpa using hlen
  refine ⟨by rw [List.length_append, hlen2], ?_⟩
  intro q hq
  exact hprops q (by rwa [List.drop_left] at hq)

/-- Concrete instance of C4: ten strokes, one clone appended with the
quantum fields. -/
theorem c4_tunneling_count_witness :
    (List.replicate 10 ([("x", PyVal.int 0), ("y", PyVal.int 0)] : Dict) ++
        [([("x", PyVal.int (-50)), ("y", PyVal.int (-50)),
          ("quantum_state", PyVal.float (4/5)),
          ("quantum_tunnel", PyVal.bool true)] : Dict)]).length =
      (List.replicate 10
        ([("x", PyVal.int 0), ("y", PyVal.int 0)] : Dict)).length +
      (List.replicate 10
        ([("x", PyVal.int 0), ("y", PyVal.int 0)] : Dict)).length / 10 ∧
    ∀ q ∈ (List.replicate 10
        ([("x", PyVal.int 0), ("y", PyVal.int 0)] : Dict) ++
        [([("x", PyVal.int (-50)), ("y", PyVal.int (-50)),
          ("quantum_state", PyVal.float (4/5)),
          ("quantum_tunnel", PyVal.bool true)] : Dict)]).drop
        (List.replicate 10
          ([("x", PyVal.int 0), ("y", PyVal.int 0)] : Dict)).length,
      (∃ qv : ℚ, dget q "quantum_state" = some (PyVal.float qv) ∧
        4/5 ≤ qv ∧ qv ≤ 1) ∧
      dget q "quantum_tunnel" = some (PyVal.bool true) :=
  c4_tunneling_count (fun _ => ⟨le_refl 0, by norm_num⟩)
    (show tunnelPhase ⟨fun _ => 0⟩
        (List.replicate 10 ([("x", PyVal.int 0), ("y", PyVal.int 0)] : Dict))
        0 =
      Except.ok
        (List.replicate 10 ([("x", PyVal.int 0), ("y", PyVal.int 0)] : Dict)
          ++ [([("x", PyVal.int (-50)), ("y", PyVal.int (-50)),
            ("quantum_state", PyVal.float (4/5)),
            ("quantum_tunnel", PyVal.bool true)] : Dict)], 4)
      by with_unfolding_all rfl)

theorem forall2_getD {R : Dict → Dict → Prop} :
    ∀ {l1 l2 : List Dict}, List.Forall₂ R l1 l2 →
      ∀ i, i < l1.length → R (l1.getD i []) (l2.getD i []) := by
  intro l1 l2 h
  induction h with
  | nil => intro i hi; simp at hi
  | @cons a b t1 t2 ha htail ih =>
      intro i hi
      cases i with
      | zero => exact ha
      | succ i => exact ih i (by simpa using hi)

/-- C7 as stated is false on the length clause: `_apply_medium_properties`
multiplies the length by `(1 + blending * 0.5)` but then stores
`int(length)`, truncating.  For Oil Paint (blending 0.9) and length 5 the
product is 5 · 1.45 = 7.25 while the stored length is the integer 7, and
7 ≠ 7.25. -/
theorem c7_counterexample :
    applyMedium "Oil Paint"
        [[("pressure", PyVal.float (1/2)), ("length", PyVal.int 5)]] =
      Except.ok [[("pressure", PyVal.float (2/5)), ("length", PyVal.int 7),
        ("medium_properties", mediumPropsVal "Oil Paint")]] ∧
    (5 : ℚ) * (1 + (9/10) * (1/2)) = 29/4 ∧ ((7 : ℚ) ≠ 29/4) :=
  ⟨by with_unfolding_all rfl, by norm_num, by norm_num⟩

/-- C7 amended: for every stroke sequence with numeric pressures and
lengths, `_apply_medium_properties` multiplies each pressure by the medium's
viscosity, multiplies each length by `(1 + blending * 0.5)` and truncates
the product to an integer (`int(...)`), attaches the medium-property record,
and any unknown medium gets exactly viscosity 0.5 / blending 0.7 /
drying 0.5; no bounds-clamping is applied beyond the truncation. -/
theorem c7_medium_properties {m : String} {ss out : List Dict}
    (hok : applyMedium m ss = Except.ok out) :
    out.length = ss.length ∧
    (∀ i, i < ss.length → ∀ p l : ℚ,
      (dget (ss.getD i []) "pressure").bind numQ = some p →
      (dget (ss.getD i []) "length").bind numQ = some l →
      dget (out.getD i []) "pressure" =
        some (PyVal.float (p * (mediumProps m).1)) ∧
      dget (out.getD i []) "length" =
        some (PyVal.int (pyInt (l * (1 + (mediumProps m).2.1 * (1/2))))) ∧
      dget (out.getD i []) "medium_properties" = some (mediumPropsVal m)) ∧
    (m ≠ "Oil Paint" → m ≠ "Watercolor" → m ≠ "Pencil Art" →
      m ≠ "Digital Painting" → mediumProps m = (1/2, 7/10, 1/2)) := by
  have hrel := applyMedium_inv hok
  refine ⟨(List.Forall₂.length_eq hrel).symm, ?_, ?_⟩
  · intro i hi p l hp hl
    have hstep := forall2_getD hrel i hi
    rw [mediumStep_ok hp hl] at hstep
    injection hstep with h2
    rw [← h2]
    refine ⟨?_, dget_dset_self _ _ _, ?_⟩
    · rw [dget_dset_ne _ _ (by decide), dget_dset_self]
    · rw [dget_dset_ne _ _ (by decide), dget_dset_ne _ _ (by decide),
        dget_dset_self]
  · intro h1 h2 h3 h4
    simp [mediumProps, h1, h2, h3, h4]

/-- Concrete instance of C7 (amended): an unknown medium gets the default
property triple. -/
theorem c7_medium_properties_witness : mediumProps "Crayon" = (1/2, 7/10, 1/2) :=
  (c7_medium_properties (m := "Crayon")
    (show applyMedium "Crayon"
        [[("pressure", PyVal.float (1/2)), ("length", PyVal.int 5)]] =
      Except.ok [[("pressure", PyVal.float (1/4)), ("length", PyVal.int 6),
        ("medium_properties", mediumPropsVal "Crayon")]]
      by with_unfolding_all rfl)).2.2
    (by decide) (by decide) (by decide) (by decide)

/-- C3 as stated is false: numpy's uint8 arithmetic wraps the central
differences modulo 256.  On a 3×3 image whose red channel is 1 on the top
row, 2 in the rightmost column and 0 elsewhere, the interior pixel (1,1)
has signed `dy = 0 - 1 = -1`, but the source computes the wrapped value
255, so `atan2` receives `(255, 2)` instead of the claimed `(-1, 2)` —
different angles, since `atan2(·, 2)` is injective. -/
theorem c3_counterexample :
    gradCase ⟨3, 3, fun x y =>
        (if y = 0 then 1 else if x = 2 then 2 else 0, 0, 0)⟩ 1 1 =
      GradCase.atan2Args 255 2 ∧
    gradCaseClaim ⟨3, 3, fun x y =>
        (if y = 0 then 1 else if x = 2 then 2 else 0, 0, 0)⟩ 1 1 =
      GradCase.atan2Args (-1) 2 ∧
    gradCase ⟨3, 3, fun x y =>
        (if y = 0 then 1 else if x = 2 then 2 else 0, 0, 0)⟩ 1 1 ≠
      gradCaseClaim ⟨3, 3, fun x y =>
        (if y = 0 then 1 else if x = 2 then 2 else 0, 0, 0)⟩ 1 1 := by
  have h1 : gradCase ⟨3, 3, fun x y =>
      (if y = 0 then 1 else if x = 2 then 2 else 0, 0, 0)⟩ 1 1 =
      GradCase.atan2Args 255 2 := by with_unfolding_all rfl
  have h2 : gradCaseClaim ⟨3, 3, fun x y =>
      (if y = 0 then 1 else if x = 2 then 2 else 0, 0, 0)⟩ 1 1 =
      GradCase.atan2Args (-1) 2 := by with_unfolding_all rfl
  refine ⟨h1, h2, ?_⟩
  rw [h1, h2]
  decide

/-- C3 amended: on a uint8 image, for every interior grid point the source
passes `atan2` the central differences computed in uint8 arithmetic — each
congruent modulo 256 to the exact signed difference, with value in
`[0, 255]`; the angle is `π/2` exactly when the two red values horizontally
adjacent are equal (`dx == 0`), and boundary pixels get the uniform-random
angle. -/
theorem c3_gradient_angle {img : SrcImage} (himg : img.Ok) (x y : ℕ) :
    ((0 < y ∧ 0 < x ∧ y < img.height - 1 ∧ x < img.width - 1) →
      ((∀ dy dx : ℤ, gradCase img x y = GradCase.atan2Args dy dx →
        0 ≤ dy ∧ dy ≤ 255 ∧ 0 ≤ dx ∧ dx ≤ 255 ∧ dx ≠ 0 ∧
        dy % 256 = ((red img x (y + 1) : ℤ) - (red img x (y - 1))) % 256 ∧
        dx % 256 = ((red img (x + 1) y : ℤ) - (red img (x - 1) y)) % 256) ∧
      (red img (x + 1) y = red img (x - 1) y ↔
        gradCase img x y = GradCase.halfPi))) ∧
    (¬(0 < y ∧ 0 < x ∧ y < img.height - 1 ∧ x < img.width - 1) →
      gradCase img x y = GradCase.randomAngle) := by
  constructor
  · intro hin
    have hb1 := (himg (x + 1) y).1
    have hb2 := (himg (x - 1) y).1
    have hdx0 : u8sub (red img (x + 1) y) (red img (x - 1) y) = 0 ↔
        red img (x + 1) y = red img (x - 1) y := by
      unfold u8sub red at *
      omega
    constructor
    · intro dy dx hcase
      rw [gradCase, if_pos hin] at hcase
      by_cases hdx : u8sub (red img (x + 1) y) (red img (x - 1) y) ≠ 0
      · rw [if_pos hdx] at hcase
        injection hcase with e1 e2
        subst e1
        subst e2
        have hby1 := (himg x (y + 1)).1
        have hby2 := (himg x (y - 1)).1
        unfold u8sub red at *
        constructor
        · omega
        constructor
        · omega
        constructor
        · omega
        constructor
        · omega
        refine ⟨by omega, by omega, by omega⟩
      · rw [if_neg hdx] at hcase
        cases hcase
    · rw [gradCase, if_pos hin]
      constructor
      · intro he
        rw [if_neg (by rw [← hdx0] at he; simpa using he)]
      · intro he
        by_cases hdx : u8sub (red img (x + 1) y) (red img (x - 1) y) ≠ 0
        · rw [if_pos hdx] at he; cases he
        · exact hdx0.mp (by simpa using hdx)
  · intro hout
    rw [gradCase, if_neg hout]

/-- Concrete instance of C3 (amended): the wrapped differences at the
counterexample pixel are bounded and congruent to the signed ones. -/
theorem c3_gradient_angle_witness :
    0 ≤ (255 : ℤ) ∧ (255 : ℤ) ≤ 255 ∧ 0 ≤ (2 : ℤ) ∧ (2 : ℤ) ≤ 255 ∧
    (2 : ℤ) ≠ 0 ∧
    (255 : ℤ) % 256 =
      ((red ⟨3, 3, fun x y =>
          (if y = 0 then 1 else if x = 2 then 2 else 0, 0, 0)⟩ 1 2 : ℤ) -
        (red ⟨3, 3, fun x y =>
          (if y = 0 then 1 else if x = 2 then 2 else 0, 0, 0)⟩ 1 0)) % 256 ∧
    (2 : ℤ) % 256 =
      ((red ⟨3, 3, fun x y =>
          (if y = 0 then 1 else if x = 2 then 2 else 0, 0, 0)⟩ 2 1 : ℤ) -
        (red ⟨3, 3, fun x y =>
          (if y = 0 then 1 else if x = 2 then 2 else 0, 0, 0)⟩ 0 1)) % 256 :=
  ((c3_gradient_angle
    (show SrcImage.Ok ⟨3, 3, fun x y =>
        (if y = 0 then 1 else if x = 2 then 2 else 0, 0, 0)⟩
      from fun x y => by
        refine ⟨?_, by norm_num, by norm_num⟩
        dsimp only
        split
        · norm_num
        · split <;> norm_num)
    1 1).1 (by norm_num)).1 255 2 (by with_unfolding_all rfl)

theorem forall2_mem_right {R : Dict → Dict → Prop} :
    ∀ {l1 l2 : List Dict}, List.Forall₂ R l1 l2 → ∀ {b}, b ∈ l2 →
      ∃ a, a ∈ l1 ∧ R a b := by
  intro l1 l2 h
  induction h with
  | nil => intro b hb; simp at hb
  | @cons a b t1 t2 ha htail ih =>
      intro b2 hb2
      rcases List.mem_cons.mp hb2 with rfl | hb2
      · exact ⟨a, List.mem_cons_self _ _, ha⟩
      · obtain ⟨a2, ha2, hr⟩ := ih hb2
        exact ⟨a2, List.mem_cons_of_mem _ ha2, hr⟩

theorem getD_of_le {α : Type} (d : α) :
    ∀ (l : List α) (i : ℕ), l.length ≤ i → l.getD i d = d
  | [], _, _ => rfl
  | _ :: _, 0, h => absurd h (by simp)
  | _ :: l, i + 1, h => getD_of_le d l i (by simpa using h)

/-- The planning pipeline after the planner completes on strokes with
numeric `x`/`y`, `pressure` and `length`. -/
theorem planTail_ok {med : String} {t : Tape} (ht : t.Ok)
    {bk : List Dict × ℕ}
    (hshape : ∀ s ∈ bk.1, HasNumXY s ∧ NumPL s) :
    ∃ out, planTail med t bk = Except.ok out := by
  obtain ⟨base, k⟩ := bk
  obtain ⟨m, hm, hrel⟩ := applyMedium_ok fun s hs => (hshape s hs).2
  have hmxy : ∀ s2 ∈ m, HasNumXY s2 := by
    intro s2 hs2
    obtain ⟨s1, hs1, hstep⟩ := forall2_mem_right hrel hs2
    obtain ⟨hother, _, _, _⟩ := mediumStep_facts hstep
    obtain ⟨⟨vx, hvx, hnx⟩, ⟨vy, hvy, hny⟩⟩ := (hshape s1 hs1).1
    exact ⟨⟨vx, by
        rw [hother "x" (by decide) (by decide) (by decide)]; exact hvx, hnx⟩,
      ⟨vy, by
        rw [hother "y" (by decide) (by decide) (by decide)]; exact hvy, hny⟩⟩
  obtain ⟨tail, k2, hloop, _, _, _⟩ :=
    tunnelLoop_ok ht (fun _ => True) (fun _ _ _ _ => trivial)
      (m.length / 10) m k (fun s hs => ⟨hmxy s hs, trivial⟩)
      (fun hc => by rw [hc]; rfl)
  refine ⟨(entanglePhase (m ++ tail)).map convStroke, ?_⟩
  rw [planTail]
  unfold addQuantumEffects tunnelPhase
  dsimp only
  rw [hm]
  dsimp only
  rw [hloop]

/-- One tunneling iteration on nonempty strokes that all lack an `x` key:
`KeyError`. -/
theorem tunnelStep_err_noX {t : Tape} {m : List Dict} {k : ℕ}
    (hne : m ≠ []) (hmx : ∀ s ∈ m, dget s "x" = Option.none) :
    tunnelStep t (m, k) = Except.error () := by
  cases m with
  | nil => exact absurd rfl hne
  | cons a l =>
      rw [tunnelStep]
      dsimp only
      have hxnone : dget ((a :: l).getD
          (chooseIdx t k (a :: l).length) []) "x" = Option.none := by
        by_cases hidx : chooseIdx t k (a :: l).length < (a :: l).length
        · exact hmx _ (getD_mem [] _ _ hidx)
        · rw [getD_of_le [] _ _ (le_of_not_lt hidx)]
          rfl
      rw [hxnone]
      simp only [Option.none_bind]

/-- The pipeline on ten or more strokes that all lack an `x` key (the
Cubist shape): the first tunneling iteration raises `KeyError`. -/
theorem planTail_err_cubist {med : String} {t : Tape}
    {bk : List Dict × ℕ}
    (hshape : ∀ s ∈ bk.1, dget s "x" = Option.none ∧ NumPL s)
    (hlen : 10 ≤ bk.1.length) :
    planTail med t bk = Except.error () := by
  obtain ⟨base, k⟩ := bk
  obtain ⟨m, hm, hrel⟩ := applyMedium_ok fun s hs => (hshape s hs).2
  have hmx : ∀ s2 ∈ m, dget s2 "x" = Option.none := by
    intro s2 hs2
    obtain ⟨s1, hs1, hstep⟩ := forall2_mem_right hrel hs2
    obtain ⟨hother, _, _, _⟩ := mediumStep_facts hstep
    rw [hother "x" (by decide) (by decide) (by decide)]
    exact (hshape s1 hs1).1
  have hmlen : base.length = m.length := List.Forall₂.length_eq hrel
  have hne : m ≠ [] := by
    intro hc
    rw [hc] at hmlen
    dsimp only at hlen
    simp only [List.length_nil] at hmlen
    omega
  have hstep : tunnelStep t (m, k) = Except.error () :=
    tunnelStep_err_noX hne hmx
  obtain ⟨n, hn⟩ : ∃ n, m.length / 10 = n + 1 := by
    refine ⟨m.length / 10 - 1, ?_⟩
    dsimp only at hlen
    omega
  rw [planTail]
  unfold addQuantumEffects tunnelPhase
  dsimp only
  rw [hm]
  dsimp only
  rw [hn, tunnelLoop, hstep]

theorem cubAngles_len (t : Tape) (region : Dict) :
    ∀ (as : List ℚ) (k : ℕ), (cubAngles t region as k).1.length = as.length := by
  intro as
  induction as with
  | nil => intro k; rfl
  | cons a rest ih =>
      intro k
      rw [cubAngles]
      rcases he : cubAngles t region rest (k + 2) with ⟨more, k2⟩
      dsimp only
      have h2 := ih (k + 2)
      rw [he] at h2
      dsimp only at h2
      rw [List.length_cons, h2, List.length_cons]

theorem cubLoop_len (t : Tape) :
    ∀ (rs : List Dict) (k : ℕ), (cubLoop t rs k).1.length = 4 * rs.length := by
  intro rs
  induction rs with
  | nil => intro k; rfl
  | cons r rest ih =>
      intro k
      rw [cubLoop]
      rcases ha : cubAngles t r [0, 45, 90, 135] k with ⟨st, k1⟩
      dsimp only
      rcases he : cubLoop t rest k1 with ⟨more, k2⟩
      dsimp only
      have h1 := cubAngles_len t r [0, 45, 90, 135] k
      rw [ha] at h1
      dsimp only at h1
      have h2 := ih k1
      rw [he] at h2
      dsimp only at h2
      rw [List.length_append, h1, h2, List.length_cons]
      simp only [List.length_cons, List.length_nil]
      omega

theorem flatMap_map_length {α β γ : Type} (l1 : List α) (l2 : List β)
    (f : α → β → γ) :
    (l1.flatMap fun y => l2.map fun x => f y x).length =
      l1.length * l2.length := by
  induction l1 with
  | nil => simp
  | cons y ys ih =>
      simp only [List.flatMap_cons, List.length_append, List.length_map, ih,
        List.length_cons]
      ring

theorem divideGeometric_length (w h : ℕ) :
    (divideGeometric w h).length =
      (pyRange h 100).length * (pyRange w 100).length := by
  unfold divideGeometric
  exact flatMap_map_length _ _ _

/-- C1 as stated is false at a concrete input: a 300×100 image gives the
Cubist planner 3 regions and 12 strokes, the tunneling count is 1, and the
first tunneling iteration raises `KeyError` on the missing `'x'` key. -/
theorem c1_counterexample :
    plan_strokes ⟨fun _ _ => 0, 0, 0⟩ ⟨300, 100, fun _ _ => (0, 0, 0)⟩
      "Cubism" "Oil Paint" ⟨fun _ => 0⟩ = Except.error () := by
  with_unfolding_all rfl

/-- C1 amended: `plan_strokes` completes without exception for every art
type other than Cubism; for Cubism it raises (`KeyError` on `'x'` inside
`_add_quantum_effects`) whenever the planner covers at least 3 regions, so
that the 12-or-more strokes make the tunneling count positive. -/
theorem c1_plan_strokes (O : FloatOracle) (img : SrcImage)
    (art med : String) (t : Tape) (ht : t.Ok) :
    (art ≠ "Cubism" → ∃ out, plan_strokes O img art med t = Except.ok out) ∧
    (art = "Cubism" →
      3 ≤ (pyRange img.height 100).length * (pyRange img.width 100).length →
      plan_strokes O img art med t = Except.error ()) := by
  constructor
  · intro hart
    rw [plan_strokes]
    by_cases h1 : art = "Impressionism"
    · rw [if_pos h1]
      exact planTail_ok ht fun s hs =>
        ⟨(impLoop_shape O img t _ 0 s hs).1, (impLoop_shape O img t _ 0 s hs).2.1⟩
    · rw [if_neg h1, if_neg hart]
      by_cases h3 : art = "Realism"
      · rw [if_pos h3]
        exact planTail_ok ht fun s hs =>
          ⟨(realLoop_shape O img t _ 0 s hs).1,
            (realLoop_shape O img t _ 0 s hs).2.1⟩
      · rw [if_neg h3]
        exact planTail_ok ht fun s hs =>
          ⟨(genLoop_shape O img t _ 0 s hs).1,
            (genLoop_shape O img t _ 0 s hs).2.1⟩
  · intro hart hreg
    rw [plan_strokes, if_neg (by rw [hart]; decide), if_pos hart]
    apply planTail_err_cubist
    · intro s hs
      have hc := cubLoop_shape t _ 0 s hs
      exact ⟨hc.1, hc.2.2.2.1⟩
    · have he : (planCubist img t 0).1.length =
          4 * ((pyRange img.height 100).length *
            (pyRange img.width 100).length) := by
        unfold planCubist
        rw [cubLoop_len, divideGeometric_length]
      rw [he]
      omega

/-- Concrete instance of C1 (amended): Cubism on a 500×100 image (5 regions)
raises. -/
theorem c1_plan_strokes_witness :
    plan_strokes ⟨fun _ _ => 0, 0, 0⟩ ⟨500, 100, fun _ _ => (0, 0, 0)⟩
      "Cubism" "Watercolor" ⟨fun _ => 0⟩ = Except.error () :=
  (c1_plan_strokes ⟨fun _ _ => 0, 0, 0⟩ ⟨500, 100, fun _ _ => (0, 0, 0)⟩
    "Cubism" "Watercolor" ⟨fun _ => 0⟩
    (fun _ => ⟨le_refl 0, by norm_num⟩)).2 rfl (by decide)

/-- Inversion of the planning pipeline tail. -/
theorem planTail_inv {med : String} {t : Tape} {bk : List Dict × ℕ}
    {out : List Dict} (h : planTail med t bk = Except.ok out) :
    ∃ m q k2, applyMedium med bk.1 = Except.ok m ∧
      tunnelPhase t m bk.2 = Except.ok (q, k2) ∧
      out = (entanglePhase q).map convStroke := by
  obtain ⟨base, k⟩ := bk
  rw [planTail] at h
  dsimp only at h
  cases hm : applyMedium med base with
  | error e => rw [hm] at h; cases h
  | ok m =>
      rw [hm] at h
      dsimp only at h
      unfold addQuantumEffects at h
      cases htp : tunnelPhase t m k with
      | error e => rw [htp] at h; cases h
      | ok p =>
          rcases p with ⟨q, k2⟩
          rw [htp] at h
          dsimp only at h
          injection h with h2
          exact ⟨m, q, k2, rfl, htp, h2.symm⟩

theorem colorOk_dset_other {s : Dict} {k : String} {v : PyVal}
    (hk : k ≠ "color") (h : ColorOk s) : ColorOk (dset s k v) := by
  obtain ⟨r, g, b, hc, hb⟩ := h
  exact ⟨r, g, b, by rw [dget_dset_ne _ _ hk]; exact hc, hb⟩

theorem colorOk_conv {s : Dict} (h : ColorOk s) : ColorOk (convStroke s) := by
  obtain ⟨r, g, b, hc, hb⟩ := h
  refine ⟨r, g, b, ?_, hb⟩
  rw [dget_convStroke, hc]
  rfl

/-- C2 as stated is false for Cubism: on a 100×100 image the Cubist planner
emits 4 strokes, the pipeline completes (tunneling count 0), and the
returned strokes carry no `color` key at all. -/
theorem c2_counterexample :
    (plan_strokes ⟨fun _ _ => 0, 0, 0⟩ ⟨100, 100, fun _ _ => (255, 0, 0)⟩
      "Cubism" "Watercolor" ⟨fun _ => 0⟩).map
        (fun l => (dget (l.getD 0 []) "color", l.length)) =
      Except.ok (Option.none, 4) := by
  with_unfolding_all rfl

/-- C2 amended: for every uint8 image and every recognized art type other
than Cubism (Impressionism, Realism, and the general fallback), every stroke
returned by `plan_strokes` has a color that is a 3-tuple of integers in
`[0, 255]`; Cubist strokes carry no color field. -/
theorem c2_planned_colors (O : FloatOracle) {img : SrcImage}
    (himg : img.Ok) (art med : String) (t : Tape) (ht : t.Ok)
    (hart : art ≠ "Cubism") {out : List Dict}
    (hok : plan_strokes O img art med t = Except.ok out) :
    ∀ s ∈ out, ColorOk s := by
  rw [plan_strokes] at hok
  have hbase : ∀ s ∈ (if art = "Impressionism" then planImpressionist O img t 0
      else if art = "Cubism" then planCubist img t 0
      else if art = "Realism" then planRealistic O img t 0
      else planGeneral O img t 0).1, HasNumXY s ∧ NumPL s ∧ ColorOk s := by
    by_cases h1 : art = "Impressionism"
    · rw [if_pos h1]
      intro s hs
      obtain ⟨a, b, c⟩ := impLoop_shape O img t _ 0 s hs
      exact ⟨a, b, c himg⟩
    · rw [if_neg h1, if_neg hart]
      by_cases h3 : art = "Realism"
      · rw [if_pos h3]
        intro s hs
        obtain ⟨a, b, c⟩ := realLoop_shape O img t _ 0 s hs
        exact ⟨a, b, c himg⟩
      · rw [if_neg h3]
        intro s hs
        obtain ⟨a, b, c⟩ := genLoop_shape O img t _ 0 s hs
        exact ⟨a, b, c himg⟩
  obtain ⟨m, q, k2, hm, htp, hout⟩ := planTail_inv hok
  have hrel := applyMedium_inv hm
  have hmprops : ∀ s2 ∈ m, HasNumXY s2 ∧ ColorOk s2 := by
    intro s2 hs2
    obtain ⟨s1, hs1, hstep⟩ := forall2_mem_right hrel hs2
    obtain ⟨hother, _, _, _⟩ := mediumStep_facts hstep
    obtain ⟨⟨vx, hvx, hnx⟩, ⟨vy, hvy, hny⟩⟩ := (hbase s1 hs1).1
    obtain ⟨r, g, b, hc, hbnd⟩ := (hbase s1 hs1).2.2
    refine ⟨⟨⟨vx, ?_, hnx⟩, ⟨vy, ?_, hny⟩⟩, ⟨r, g, b, ?_, hbnd⟩⟩
    · rw [hother "x" (by decide) (by decide) (by decide)]; exact hvx
    · rw [hother "y" (by decide) (by decide) (by decide)]; exact hvy
    · rw [hother "color" (by decide) (by decide) (by decide)]; exact hc
  obtain ⟨tail, k3, hloop, _, hall, _⟩ :=
    tunnelLoop_ok ht ColorOk
      (fun s s2 hkeys hP => by
        obtain ⟨r, g, b, hc, hbnd⟩ := hP
        exact ⟨r, g, b, by
          rw [hkeys "color" (by decide) (by decide) (by decide) (by decide)]
          exact hc, hbnd⟩)
      (m.length / 10) m
      (if art = "Impressionism" then planImpressionist O img t 0
        else if art = "Cubism" then planCubist img t 0
        else if art = "Realism" then planRealistic O img t 0
        else planGeneral O img t 0).2
      (fun s hs => ⟨(hmprops s hs).1, (hmprops s hs).2⟩)
      (fun hc => by rw [hc]; rfl)
  unfold tunnelPhase at htp
  rw [hloop] at htp
  injection htp with htp2
  injection htp2 with hq hk
  subst hout
  intro s hs
  obtain ⟨s0, hs0, rfl⟩ := List.mem_map.mp hs
  apply colorOk_conv
  have hq2 : ∀ s2 ∈ q, ColorOk s2 := by
    intro s2 hs2
    rw [← hq] at hs2
    exact (hall s2 hs2).2
  exact entLoop_mem_pres ColorOk
    (fun s2 v h2 => colorOk_dset_other (by decide) h2) _ q hq2 s0 hs0

/-- Concrete instance of C2 (amended): one impressionist stroke on a 10×10
image sampling the pixel color (200, 10, 30). -/
theorem c2_planned_colors_witness :
    ColorOk ([("type", PyVal.str "brush"), ("x", PyVal.int 0),
      ("y", PyVal.int 0), ("length", PyVal.int 6),
      ("angle", PyVal.float 0), ("pressure", PyVal.float (3/100)),
      ("color", PyVal.tuple [PyVal.int 200, PyVal.int 10, PyVal.int 30]),
      ("quantum_state", PyVal.float 0),
      ("medium_properties", PyVal.dict [("viscosity", PyVal.float (1/10)),
        ("blending", PyVal.float (2/5)),
        ("drying", PyVal.float (9/10))])] : Dict) :=
  c2_planned_colors ⟨fun _ _ => 0, 0, 0⟩
    (show SrcImage.Ok ⟨10, 10, fun _ _ => (200, 10, 30)⟩
      from fun _ _ => ⟨by norm_num, by norm_num, by norm_num⟩)
    "Impressionism" "Pencil Art" ⟨fun i => if i = 0 then 4/5 else 0⟩
    (fun i => by dsimp only; split <;> norm_num)
    (by decide) (by with_unfolding_all rfl)
    _ (List.mem_singleton_self _)

theorem cubFinal_pressureNum {s : Dict} (h : CubFinal s) :
    PressureNumOrAbsent s := by
  obtain ⟨_, _, _, _, ⟨p, hp⟩, _, _⟩ := h
  intro v hv
  rw [hp] at hv
  injection hv with hv2
  rw [← hv2]
  simp [NumV, numQ]

theorem cubFinal_strokeCmd {s : Dict} (h : CubFinal s) :
    ∃ lf af : ℚ, strokeCmd s =
      some ⟨0, 0, lf, af, (255, 215, 0), 2⟩ := by
  obtain ⟨hx, hy, hc, hq, ⟨p, hp⟩, ⟨l, hl⟩, ⟨a, ha⟩⟩ := h
  refine ⟨(l : ℚ), a, ?_⟩
  have hcol : colorOf s = some (255, 215, 0) := by
    unfold colorOf
    rw [hc]
  have hal : alphaOf s = some (pyInt (255 * p)) := by
    unfold alphaOf dgetD
    rw [hq, hp]
    rfl
  unfold strokeCmd dgetD
  rw [hx, hy, hl, ha, hcol, hal]
  rfl

theorem cubFinal_dset_ew {s : Dict} {v : PyVal} (h : CubFinal s) :
    CubFinal (dset s "entangled_with" v) := by
  obtain ⟨hx, hy, hc, hq, ⟨p, hp⟩, ⟨l, hl⟩, ⟨a, ha⟩⟩ := h
  refine ⟨?_, ?_, ?_, ?_, ⟨p, ?_⟩, ⟨l, ?_⟩, ⟨a, ?_⟩⟩ <;>
    rw [dget_dset_ne _ _ (by decide)] <;> assumption

theorem cubFinal_conv {s : Dict} (h : CubFinal s) :
    CubFinal (convStroke s) := by
  obtain ⟨hx, hy, hc, hq, ⟨p, hp⟩, ⟨l, hl⟩, ⟨a, ha⟩⟩ := h
  refine ⟨?_, ?_, ?_, ?_, ⟨p, ?_⟩, ⟨l, ?_⟩, ⟨a, ?_⟩⟩ <;>
    rw [dget_convStroke]
  · rw [hx]; rfl
  · rw [hy]; rfl
  · rw [hc]; rfl
  · rw [hq]; rfl
  · rw [hp]; rfl
  · rw [hl]; rfl
  · rw [ha]; rfl

theorem filterMap_length_all_some {α β : Type} {f : α → Option β} :
    ∀ {l : List α}, (∀ a ∈ l, (f a).isSome) →
      (l.filterMap f).length = l.length := by
  intro l
  induction l with
  | nil => intro _; rfl
  | cons a rest ih =>
      intro h
      obtain ⟨b, hb⟩ := Option.isSome_iff_exists.mp
        (h a (List.mem_cons_self _ _))
      rw [List.filterMap_cons, hb, List.length_cons, List.length_cons,
        ih fun a2 ha2 => h a2 (List.mem_cons_of_mem _ ha2)]

/-- C9 as stated is false: a stroke dict that lacks all of `x`, `y`,
`length`, `angle` and `color` can still be *skipped* rather than drawn —
a non-numeric `pressure` makes the dead alpha computation raise inside the
per-stroke `try`, and nothing is drawn. -/
theorem c9_counterexample :
    dget [("pressure", PyVal.str "bad")] "x" = Option.none ∧
    dget [("pressure", PyVal.str "bad")] "y" = Option.none ∧
    dget [("pressure", PyVal.str "bad")] "length" = Option.none ∧
    dget [("pressure", PyVal.str "bad")] "angle" = Option.none ∧
    dget [("pressure", PyVal.str "bad")] "color" = Option.none ∧
    renderStrokes (10, 10) [[("pressure", PyVal.str "bad")]] =
      Except.ok ⟨(10, 10), []⟩ :=
  ⟨rfl, rfl, rfl, rfl, rfl, by with_unfolding_all rfl⟩

/-- C9 amended: a stroke lacking the `x`/`y`/`length`/`angle`/`color` keys
is drawn with defaults x=0, y=0, length=10, angle=0 and the gold color,
provided its `pressure` (if present) is numeric so that the dead alpha
computation cannot raise; consequently every stroke of a completed Cubist
plan — which lacks `x`/`y`/`color` but carries its own length and angle —
is rendered as a width-2 line starting at the canvas origin (0,0) in gold,
none skipped. -/
theorem c9_default_rendering :
    (∀ s : Dict, dget s "x" = Option.none → dget s "y" = Option.none →
      dget s "length" = Option.none → dget s "angle" = Option.none →
      dget s "color" = Option.none → PressureNumOrAbsent s →
      strokeCmd s = some ⟨0, 0, 10, 0, (255, 215, 0), 2⟩) ∧
    (∀ (O : FloatOracle) (img : SrcImage) (med : String) (t : Tape),
      t.Ok → ∀ (out : List Dict) (sz : ℕ × ℕ),
      plan_strokes O img "Cubism" med t = Except.ok out →
      ∃ rimg, renderStrokes sz out = Except.ok rimg ∧
        rimg.cmds.length = out.length ∧
        ∀ cmd ∈ rimg.cmds, cmd.x1 = 0 ∧ cmd.y1 = 0 ∧
          cmd.color = (255, 215, 0) ∧ cmd.width = 2) := by
  constructor
  · intro s hx hy hl ha hc hp
    obtain ⟨al, hal⟩ := alphaOf_isSome hp
    have hcol : colorOf s = some (255, 215, 0) := by
      unfold colorOf
      rw [hc]
    unfold strokeCmd dgetD
    rw [hx, hy, hl, ha, hcol, hal]
    rfl
  · intro O img med t ht out sz hok
    rw [plan_strokes, if_neg (by decide), if_pos rfl] at hok
    obtain ⟨m, q, k2, hm, htp, hout⟩ := planTail_inv hok
    have hrel := applyMedium_inv hm
    have hmfin : ∀ s2 ∈ m, CubFinal s2 := by
      intro s2 hs2
      obtain ⟨s1, hs1, hstep⟩ := forall2_mem_right hrel hs2
      obtain ⟨hother, ⟨p, hp⟩, ⟨l, hl⟩, _⟩ := mediumStep_facts hstep
      obtain ⟨h1, h2, h3, _, ⟨a0, ha0⟩, hqt, _, _⟩ := cubLoop_shape t _ 0 s1 hs1
      refine ⟨?_, ?_, ?_, ?_, ⟨p, hp⟩, ⟨l, hl⟩, ⟨a0, ?_⟩⟩
      · rw [hother "x" (by decide) (by decide) (by decide)]; exact h1
      · rw [hother "y" (by decide) (by decide) (by decide)]; exact h2
      · rw [hother "color" (by decide) (by decide) (by decide)]; exact h3
      · rw [hother "quantum_tunnel" (by decide) (by decide) (by decide)]
        exact hqt
      · rw [hother "angle" (by decide) (by decide) (by decide)]; exact ha0
    have hq : q = m := by
      unfold tunnelPhase at htp
      cases hcount : m.length / 10 with
      | zero =>
          rw [hcount, tunnelLoop] at htp
          injection htp with h2
          injection h2 with h3 h4
          exact h3.symm
      | succ n =>
          exfalso
          have hne : m ≠ [] := by
            intro hcon
            rw [hcon] at hcount
            simp at hcount
          rw [hcount, tunnelLoop,
            tunnelStep_err_noX hne fun s hs => (hmfin s hs).1] at htp
          cases htp
    subst hq
    subst hout
    have hfinal : ∀ s ∈ (entanglePhase q).map convStroke, CubFinal s := by
      intro s hs
      obtain ⟨s0, hs0, rfl⟩ := List.mem_map.mp hs
      exact cubFinal_conv (entLoop_mem_pres CubFinal
        (fun s2 v h2 => cubFinal_dset_ew h2) _ q hmfin s0 hs0)
    obtain ⟨ws, hws, hwlen, hwmem⟩ :=
      pySort_ok fun s hs => cubFinal_pressureNum (hfinal s hs)
    refine ⟨⟨sz, ws.filterMap strokeCmd⟩, ?_, ?_, ?_⟩
    · unfold renderStrokes simulate_stroke_rendering
      rw [hws]
    · dsimp only
      rw [filterMap_length_all_some fun s hs => by
        obtain ⟨lf, af, hcmd⟩ := cubFinal_strokeCmd
          (hfinal s (hwmem s hs))
        rw [hcmd]
        rfl]
      exact hwlen
    · intro cmd hcmd
      obtain ⟨s, hsws, hscmd⟩ := List.mem_filterMap.mp hcmd
      obtain ⟨lf, af, hcmd2⟩ := cubFinal_strokeCmd (hfinal s (hwmem s hsws))
      rw [hcmd2] at hscmd
      injection hscmd with h2
      rw [← h2]
      exact ⟨rfl, rfl, rfl, rfl⟩

/-- Concrete instance of C9 (amended): a stroke with only a numeric
pressure gets the full default line. -/
theorem c9_default_rendering_witness :
    strokeCmd [("pressure", PyVal.float (1/2))] =
      some ⟨0, 0, 10, 0, (255, 215, 0), 2⟩ :=
  c9_default_rendering.1 [("pressure", PyVal.float (1/2))] rfl rfl rfl rfl rfl
    (fun v hv => by
      injection hv with hv2
      rw [← hv2]
      simp [NumV, numQ])

/-- C10 (confirmed): `simulate_stroke_rendering` does not modify its input:
the `strokes` argument comes back exactly as passed — the source sorts into
a fresh list (`sorted(...)`) and only ever reads stroke fields with `.get`,
never writing — so the list has the same length and each stroke dict holds
exactly the same key-value pairs. -/
theorem c10_input_unmodified (sz : ℕ × ℕ) (ss : List Dict) :
    (simulate_stroke_rendering sz ss).2 = ss ∧
    (simulate_stroke_rendering sz ss).2.length = ss.length ∧
    ∀ i, (simulate_stroke_rendering sz ss).2.getD i [] = ss.getD i [] := by
  have h : (simulate_stroke_rendering sz ss).2 = ss := by
    unfold simulate_stroke_rendering
    cases pySortStrokes ss <;> rfl
  exact ⟨h, by rw [h], fun i => by rw [h]⟩

/-- C5 as stated is false: a stroke list containing an entry with a
non-numeric coordinate can still make `simulate_stroke_rendering` raise —
the `sorted(...)` call compares a string pressure against a float pressure
*outside* the per-stroke `try`, raising `TypeError`. -/
theorem c5_counterexample :
    renderStrokes (10, 10)
      [[("pressure", PyVal.str "low"), ("x", PyVal.str "oops")],
        [("pressure", PyVal.float (1/2))]] = Except.error () := by
  with_unfolding_all rfl

/-- C5 amended: provided every stroke's `pressure`, when present, is
numeric (so the sort key comparisons cannot raise), `render_strokes` never
raises — entries with non-numeric coordinates are skipped inside the
per-stroke `try` — and the output image's size equals the requested canvas
size. -/
theorem c5_render_no_raise (sz : ℕ × ℕ) (ss : List Dict)
    (h : ∀ s ∈ ss, PressureNumOrAbsent s) :
    ∃ rimg, renderStrokes sz ss = Except.ok rimg ∧ rimg.size = sz := by
  obtain ⟨ws, hws, _, _⟩ := pySort_ok h
  refine ⟨⟨sz, ws.filterMap strokeCmd⟩, ?_, rfl⟩
  unfold renderStrokes simulate_stroke_rendering
  rw [hws]

/-- Concrete instance of C5 (amended): one stroke with a string coordinate,
one well-formed; rendering succeeds at the requested size. -/
theorem c5_render_no_raise_witness :
    ∃ rimg, renderStrokes (7, 9)
      [[("x", PyVal.str "oops")],
        [("pressure", PyVal.float (1/2)), ("x", PyVal.int 3)]] =
      Except.ok rimg ∧ rimg.size = (7, 9) :=
  c5_render_no_raise (7, 9) _ (by
    intro s hs
    rcases List.mem_cons.mp hs with rfl | hs
    · intro v hv
      simp [dget] at hv
    · rcases List.mem_cons.mp hs with rfl | hs
      · intro v hv
        simp [dget] at hv
        rw [← hv]
        simp [NumV, numQ]
      · simp at hs)

theorem dget_append_single (l : Dict) (k key : String) (v : PyVal)
    (h : key ≠ k) : dget (l ++ [(key, v)]) k = dget l k := by
  induction l with
  | nil => simp [dget, h]
  | cons hd tl ih =>
      by_cases h0 : hd.1 = k
      · simp [dget, h0]
      · simp only [List.cons_append, dget, if_neg h0]
        exact ih

/-- C8 as stated is false: flipping only the `quantum_tunnel` flag can
change the output pixels.  With a non-numeric pressure, the non-tunneled
stroke raises while computing the dead alpha (`int(255 * pressure)`) and is
skipped, while the tunneled stroke takes the `alpha = 128` branch and is
drawn — one run paints a black width-2 segment on the white canvas, the
other leaves it blank. -/
theorem c8_counterexample :
    List.Forall₂ TunnelEq
      [[("x", PyVal.int 0), ("y", PyVal.int 0), ("length", PyVal.int 10),
        ("angle", PyVal.int 0),
        ("color", PyVal.tuple [PyVal.int 0, PyVal.int 0, PyVal.int 0]),
        ("pressure", PyVal.str "p")]]
      [[("x", PyVal.int 0), ("y", PyVal.int 0), ("length", PyVal.int 10),
        ("angle", PyVal.int 0),
        ("color", PyVal.tuple [PyVal.int 0, PyVal.int 0, PyVal.int 0]),
        ("pressure", PyVal.str "p"),
        ("quantum_tunnel", PyVal.bool true)]] ∧
    renderStrokes (10, 10)
      [[("x", PyVal.int 0), ("y", PyVal.int 0), ("length", PyVal.int 10),
        ("angle", PyVal.int 0),
        ("color", PyVal.tuple [PyVal.int 0, PyVal.int 0, PyVal.int 0]),
        ("pressure", PyVal.str "p")]] = Except.ok ⟨(10, 10), []⟩ ∧
    renderStrokes (10, 10)
      [[("x", PyVal.int 0), ("y", PyVal.int 0), ("length", PyVal.int 10),
        ("angle", PyVal.int 0),
        ("color", PyVal.tuple [PyVal.int 0, PyVal.int 0, PyVal.int 0]),
        ("pressure", PyVal.str "p"),
        ("quantum_tunnel", PyVal.bool true)]] =
      Except.ok ⟨(10, 10), [⟨0, 0, 10, 0, (0, 0, 0), 2⟩]⟩ ∧
    renderStrokes (10, 10)
      [[("x", PyVal.int 0), ("y", PyVal.int 0), ("length", PyVal.int 10),
        ("angle", PyVal.int 0),
        ("color", PyVal.tuple [PyVal.int 0, PyVal.int 0, PyVal.int 0]),
        ("pressure", PyVal.str "p")]] ≠
    renderStrokes (10, 10)
      [[("x", PyVal.int 0), ("y", PyVal.int 0), ("length", PyVal.int 10),
        ("angle", PyVal.int 0),
        ("color", PyVal.tuple [PyVal.int 0, PyVal.int 0, PyVal.int 0]),
        ("pressure", PyVal.str "p"),
        ("quantum_tunnel", PyVal.bool true)]] := by
  have h1 : renderStrokes (10, 10)
      [[("x", PyVal.int 0), ("y", PyVal.int 0), ("length", PyVal.int 10),
        ("angle", PyVal.int 0),
        ("color", PyVal.tuple [PyVal.int 0, PyVal.int 0, PyVal.int 0]),
        ("pressure", PyVal.str "p")]] = Except.ok ⟨(10, 10), []⟩ := by
    with_unfolding_all rfl
  have h2 : renderStrokes (10, 10)
      [[("x", PyVal.int 0), ("y", PyVal.int 0), ("length", PyVal.int 10),
        ("angle", PyVal.int 0),
        ("color", PyVal.tuple [PyVal.int 0, PyVal.int 0, PyVal.int 0]),
        ("pressure", PyVal.str "p"),
        ("quantum_tunnel", PyVal.bool true)]] =
      Except.ok ⟨(10, 10), [⟨0, 0, 10, 0, (0, 0, 0), 2⟩]⟩ := by
    with_unfolding_all rfl
  refine ⟨List.Forall₂.cons ?_ List.Forall₂.nil, h1, h2, ?_⟩
  · intro k hk
    show dget ([("x", PyVal.int 0), ("y", PyVal.int 0),
      ("length", PyVal.int 10), ("angle", PyVal.int 0),
      ("color", PyVal.tuple [PyVal.int 0, PyVal.int 0, PyVal.int 0]),
      ("pressure", PyVal.str "p")] : Dict) k =
      dget (([("x", PyVal.int 0), ("y", PyVal.int 0),
        ("length", PyVal.int 10), ("angle", PyVal.int 0),
        ("color", PyVal.tuple [PyVal.int 0, PyVal.int 0, PyVal.int 0]),
        ("pressure", PyVal.str "p")] : Dict) ++
        [("quantum_tunnel", PyVal.bool true)]) k
    rw [dget_append_single _ _ _ _ fun hc => hk hc.symm]
  · rw [h1, h2]
    intro hcon
    injection hcon with hcon2
    have := congrArg RImage.cmds hcon2
    simp at this

/-- C8 amended: provided every stroke's `pressure` (when present) is
numeric, two stroke lists agreeing on every key except `quantum_tunnel`
render to identical images: the flag is only read by the dead alpha
computation, every stroke is drawn with the same color and width 2, and the
sort keys are untouched. -/
theorem c8_tunnel_invariance (sz : ℕ × ℕ) {ss1 ss2 : List Dict}
    (hrel : List.Forall₂ TunnelEq ss1 ss2)
    (hp : ∀ s ∈ ss1, PressureNumOrAbsent s) :
    renderStrokes sz ss1 = renderStrokes sz ss2 := by
  have hR : List.Forall₂
      (fun a b => TunnelEq a b ∧ PressureNumOrAbsent a) ss1 ss2 :=
    forall2_and_left hrel hp
  have hkeys : ss1.map sortKey = ss2.map sortKey :=
    map_sortKey_eq (fun a b hab => sortKey_tunnelEq hab.1) hR
  have hle : ∀ a b a2 b2 : Dict,
      (TunnelEq a a2 ∧ PressureNumOrAbsent a) →
      (TunnelEq b b2 ∧ PressureNumOrAbsent b) →
      pyLeB (sortKey a) (sortKey b) = pyLeB (sortKey a2) (sortKey b2) :=
    fun a b a2 b2 ha hb => by
      rw [sortKey_tunnelEq ha.1, sortKey_tunnelEq hb.1]
  unfold renderStrokes simulate_stroke_rendering
  cases hR with
  | nil => rfl
  | @cons a1 a2 t1 t2 ha htail =>
      cases htail with
      | nil =>
          dsimp only [pySortStrokes]
          rw [List.filterMap_cons, List.filterMap_cons,
            strokeCmd_tunnelEq ha.1 ha.2]
      | @cons b1 b2 r1 r2 hb hrest =>
          dsimp only [pySortStrokes]
          have hcomp : allKeysComp (a1 :: b1 :: r1) =
              allKeysComp (a2 :: b2 :: r2) :=
            allKeysComp_eq_of_map hkeys
          by_cases hc : allKeysComp (a1 :: b1 :: r1)
          · rw [if_pos hc, if_pos (by rw [← hcomp]; exact hc)]
            have hsorted := forall2_isortBy hle
              (List.Forall₂.cons ha (List.Forall₂.cons hb hrest))
            have himp : List.Forall₂ (fun x y => strokeCmd x = strokeCmd y)
                (isortBy (fun a b => pyLeB (sortKey a) (sortKey b))
                  (a1 :: b1 :: r1))
                (isortBy (fun a b => pyLeB (sortKey a) (sortKey b))
                  (a2 :: b2 :: r2)) :=
              List.Forall₂.imp
                (fun a b hab => strokeCmd_tunnelEq hab.1 hab.2) hsorted
            dsimp only
            rw [filterMap_congr_forall2 himp]
          · rw [if_neg hc, if_neg (by rw [← hcomp]; exact hc)]

/-- Concrete instance of C8 (amended): numeric pressure, flag flipped,
identical rendering. -/
theorem c8_tunnel_invariance_witness :
    renderStrokes (5, 5)
      [[("x", PyVal.int 1), ("pressure", PyVal.float (1/2)),
        ("quantum_tunnel", PyVal.bool false)]] =
    renderStrokes (5, 5)
      [[("x", PyVal.int 1), ("pressure", PyVal.float (1/2)),
        ("quantum_tunnel", PyVal.bool true)]] :=
  c8_tunnel_invariance (5, 5)
    (List.Forall₂.cons
      (fun k hk => by
        show dget (([("x", PyVal.int 1), ("pressure", PyVal.float (1/2))] :
            Dict) ++ [("quantum_tunnel", PyVal.bool false)]) k =
          dget (([("x", PyVal.int 1), ("pressure", PyVal.float (1/2))] :
            Dict) ++ [("quantum_tunnel", PyVal.bool true)]) k
        rw [dget_append_single _ _ _ _ fun hc => hk hc.symm,
          dget_append_single _ _ _ _ fun hc => hk hc.symm])
      List.Forall₂.nil)
    (by
      intro s hs
      rcases List.mem_cons.mp hs with rfl | hs
      · intro v hv
        simp [dget] at hv
        rw [← hv]
        simp [NumV, numQ]
      · simp at hs)

end Sonic
